import Mathlib

/-!
# Verification of the p4est trimesh node-numbering core

Shallow embedding of `src/p4est_trimesh.c` (the distributed node-ownership
and numbering protocol).  C integers of type `int` and `p4est_locidx_t` are
modelled as `Int` where negative sentinels occur and as `Nat` for counters
and array indices; fallible code (a `P4EST_ASSERT` or `SC_CHECK_ABORT`
firing) is modelled by `Option`, with `none` standing for the fatal abort.
The message-passing side is modelled by the data the code would hand to the
transport: the posting phase returns the list of requests it would post.

Ghost fields (`writelog`, `replylog`, `facelog`) are proof instrumentation
only: they record, respectively, every element-node slot position written,
every local index handed to `peer_add_reply`, and the value of `num_owned`
on entry to each contested (conforming two-sided) face visit.  No embedded
control flow ever reads them.
-/

namespace Trimesh

/-- Embeds `trimesh_peer_t` (lines 30-39): per-remote-rank communication
record.  `localind` and `querypos` are the two parallel growable arrays. -/
structure Peer where
  rank : Int
  done : Nat
  lastadd : Int
  bufcount : Nat
  localind : List Int
  querypos : List Int
deriving Repr, DecidableEq

/-- One side of a face connection as delivered by the traversal driver
(`p4est_iter_face_side_t`).  `le` is the local element number
(`tree->quadrants_offset + quadid`) precomputed for local sides, since the
tree array lives outside this core; `quadid` is the ghost-array index for
ghost sides (negative when the remote element is absent from the ghost
layer); `gplocal` embeds `gquad->p.piggy3.local_num`, the element index of
the ghost on its owner. -/
structure FaceSide where
  is_hanging : Bool
  is_ghost : Bool
  quadid : Int
  le : Nat
  face : Nat
  gplocal : Int
deriving Repr, DecidableEq

/-- Embeds `trimesh_meta_t` (lines 43-62) together with the parts of the
output `p4est_lnodes_t` that the analyzed code writes
(`element_nodes`, `num_local_elements`).  Ghost fields as described in the
file header. -/
structure Meta where
  with_faces : Bool
  mpisize : Int
  mpirank : Int
  has_ghost : Bool
  ghost_rank : List Int
  peers : List Peer
  remotepos : List Nat
  lenum : Nat
  num_owned : Nat
  num_shared : Nat
  num_local_elements : Nat
  element_nodes : List Int
  writelog : List Nat
  replylog : List Int
  facelog : List Nat
deriving Repr, DecidableEq

/-- `ln->vnodes`: 9 + 16 when face nodes are enabled (line 587). -/
def Meta.vnodes (me : Meta) : Nat :=
  if me.with_faces then 25 else 9

/-- Embeds `pos_lnodes_face_full` (lines 90-96): slot offset of the first
node of a face inside an element block of 25 slots. -/
def pos_lnodes_face_full (face : Nat) : Nat :=
  9 + 8 + 2 * face

/-- Embeds `set_lnodes_corner_center` (lines 75-88).  The asserts on the
element range and on the slot holding the zero sentinel become fatal
(`none`) on violation. -/
def set_lnodes_corner_center (me : Meta) (le : Nat) (lni : Int) : Option Meta :=
  if le < me.num_local_elements then
    let lpos := le * me.vnodes
    if me.element_nodes.getD lpos 0 = 0 then
      some { me with element_nodes := me.element_nodes.set lpos lni,
                     writelog := me.writelog ++ [lpos] }
    else none
  else none

/-- Embeds `set_lnodes_face_full` (lines 98-119): writes the first slot of
the face pair, requires both slots of the pair to hold the zero sentinel,
and records the position in `remotepos` when the value is a negative
(remotely owned) placeholder. -/
def set_lnodes_face_full (me : Meta) (le : Nat) (face : Nat) (lni : Int) : Option Meta :=
  if me.with_faces = true ∧ le < me.num_local_elements ∧ face < 4 then
    let lpos := le * 25 + pos_lnodes_face_full face
    if me.element_nodes.getD lpos 0 = 0 ∧ me.element_nodes.getD (lpos + 1) 0 = 0 then
      let me1 := { me with element_nodes := me.element_nodes.set lpos lni,
                           writelog := me.writelog ++ [lpos] }
      if lni < 0 then
        some { me1 with remotepos := me1.remotepos ++ [lpos] }
      else
        some me1
    else none
  else none

/-- Fresh peer record as initialized by `peer_access` (lines 136-143). -/
def new_peer (q : Int) : Peer :=
  { rank := q, done := 0, lastadd := 0, bufcount := 0, localind := [], querypos := [] }

/-- Position of the peer record for rank `q`, if present.  Functional
counterpart of the `proc_peer` index cache consulted by `peer_access`. -/
def find_peer (ps : List Peer) (q : Int) : Option Nat :=
  match ps with
  | [] => none
  | p :: rest => if p.rank = q then some 0 else (find_peer rest q).map (· + 1)

/-- Embeds `peer_access` (lines 123-152): returns the (possibly extended)
state together with the index of the peer record for rank `q`.  The
asserts on the ghost layer being present and on `0 <= q < mpisize`,
`q != mpirank` become fatal on violation. -/
def peer_access (me : Meta) (q : Int) : Option (Meta × Nat) :=
  if me.has_ghost = true ∧ 0 ≤ q ∧ q < me.mpisize ∧ q ≠ me.mpirank then
    match find_peer me.peers q with
    | some i => some (me, i)
    | none => some ({ me with peers := me.peers ++ [new_peer q] }, me.peers.length)
  else none

/-- Embeds `peer_add_reply` (lines 154-165): requires a strictly positive
owned index arriving in non-decreasing order; a repetition of the last
added index is dropped, otherwise the reply obligation count grows. -/
def peer_add_reply (peer : Peer) (lni : Int) : Option Peer :=
  if 0 < lni then
    if peer.lastadd ≤ lni then
      if peer.lastadd ≠ lni then
        some { peer with bufcount := peer.bufcount + 1, lastadd := lni }
      else
        some peer
    else none
  else none

/-- Embeds `peer_add_query` (lines 167-182): requires a non-negative remote
position and a negative placeholder index arriving in non-increasing order
(`peer->lastadd >= lni`); a repetition of the last added index is dropped,
otherwise the pair is appended to the two parallel arrays. -/
def peer_add_query (peer : Peer) (gpos : Int) (lni : Int) : Option Peer :=
  if 0 ≤ gpos then
    if lni < 0 then
      if peer.localind.length = peer.querypos.length then
        if lni ≤ peer.lastadd then
          if peer.lastadd ≠ lni then
            some { peer with localind := peer.localind ++ [lni],
                             querypos := peer.querypos ++ [gpos],
                             lastadd := lni }
          else
            some peer
        else none
      else none
    else none
  else none

/-- Applies a fallible update to the peer record at index `i`. -/
def peer_update (me : Meta) (i : Nat) (f : Peer → Option Peer) : Option Meta :=
  match me.peers.get? i with
  | none => none
  | some p =>
    match f p with
    | none => none
    | some p' => some { me with peers := me.peers.set i p' }

/-- The rank `q` computed for one side of a conforming face connection
(lines 284-298): the own rank for a local side, the ghost-rank lookup for a
ghost side present in the ghost layer, `-1` otherwise. -/
def sideQ (rank : Int) (gr : List Int) (s : FaceSide) : Int :=
  if s.is_ghost = false then rank
  else if 0 ≤ s.quadid then gr.getD s.quadid.toNat (-1)
  else -1

/-- The running ownership computation of `iter_face1`: `owner` starts at
the own rank with `is_owned` set, and is lowered by every participating
rank strictly below it (lines 299-305). -/
structure FaceCalc where
  owner : Int
  is_owned : Bool
deriving Repr, DecidableEq

/-- One step of the ownership loop (lines 299-305). -/
def faceStep (c : FaceCalc) (q : Int) : FaceCalc :=
  if 0 ≤ q then
    if q < c.owner then { owner := q, is_owned := false } else c
  else c

/-- The ownership outcome over the two sides of a conforming connection. -/
def faceCalc (rank : Int) (gr : List Int) (s0 s1 : FaceSide) : FaceCalc :=
  faceStep (faceStep { owner := rank, is_owned := true } (sideQ rank gr s0)) (sideQ rank gr s1)

/-- The remote flat position sent with a query (lines 295-296):
`gquad->p.piggy3.local_num * vnodes + pos_lnodes_face_full (face)`. -/
def gpos_of (vn : Nat) (s : FaceSide) : Int :=
  s.gplocal * (vn : Int) + ((pos_lnodes_face_full s.face : Nat) : Int)

/-- Embeds the per-side action of the second loop of the conforming branch
of `iter_face1` (lines 316-354): a local side receives the node value, a
remote side triggers the peer bookkeeping (reply obligation for an owned
node, query towards the owner, nothing for a third rank).  The asserts on
the rank comparisons become fatal on violation. -/
def face_side_proc (me : Meta) (s : FaceSide) (q : Int) (c : FaceCalc) (lni : Int) :
    Option Meta :=
  if q = me.mpirank then
    set_lnodes_face_full me s.le s.face lni
  else if 0 ≤ q then
    match peer_access me q with
    | none => none
    | some (me1, pi) =>
      if c.is_owned then
        if me1.mpirank < q then
          peer_update { me1 with replylog := me1.replylog ++ [lni] } pi
            (fun p => peer_add_reply p lni)
        else none
      else if q = c.owner then
        if q < me1.mpirank then
          peer_update me1 pi (fun p => peer_add_query p (gpos_of me1.vnodes s) lni)
        else none
      else
        if c.owner < me1.mpirank ∧ c.owner < q then some me1 else none
  else some me

/-- Embeds the conforming two-sided branch of `iter_face1`
(lines 275-357), entered only with face nodes enabled: computes the
ownership of the single face node, assigns `num_owned++` or
`-1 - num_shared++`, and processes both sides. -/
def iter_face_conf (me : Meta) (s0 s1 : FaceSide) : Option Meta :=
  let q0 := sideQ me.mpirank me.ghost_rank s0
  let q1 := sideQ me.mpirank me.ghost_rank s1
  let c := faceCalc me.mpirank me.ghost_rank s0 s1
  let me0 := { me with facelog := me.facelog ++ [me.num_owned] }
  let lni : Int := if c.is_owned then (me.num_owned : Int) else -1 - (me.num_shared : Int)
  let me1 := if c.is_owned then { me0 with num_owned := me0.num_owned + 1 }
             else { me0 with num_shared := me0.num_shared + 1 }
  match face_side_proc me1 s0 q0 c lni with
  | none => none
  | some me2 => face_side_proc me2 s1 q1 c lni

/-- Embeds the hanging branch of `iter_face1` (lines 360-398).  Every
store in that branch targets callback-local variables (`nunodes`, `codim`,
`sharers`, `is_owned`, `is_shared`, `q`, `j`); the conditional blocks that
would emit messages are empty, so the shared pass state is returned
unchanged. -/
def iter_face_hanging (me : Meta) (_s0 _s1 : FaceSide) : Meta :=
  me

/-- Embeds `iter_corner1` (lines 400-403): the body is empty. -/
def iter_corner1 (me : Meta) : Meta :=
  me

/-- Embeds the one-sided (domain boundary) branch of `iter_face1`
(lines 241-254): the side is asserted non-hanging and local; with face
nodes enabled the process unconditionally owns the face midpoint. -/
def iter_face_boundary (me : Meta) (s : FaceSide) : Option Meta :=
  if s.is_hanging = false ∧ s.is_ghost = false then
    if me.with_faces then
      match set_lnodes_face_full me s.le s.face (me.num_owned : Int) with
      | none => none
      | some me1 => some { me1 with num_owned := me1.num_owned + 1 }
    else some me
  else none

/-- Embeds the two-sided dispatch of `iter_face1` (lines 270-398): both
sides hanging violates the assert on line 274; both full goes to the
conforming branch (a no-op without face nodes); a mixed connection goes to
the hanging branch. -/
def iter_face_two (me : Meta) (s0 s1 : FaceSide) : Option Meta :=
  if s0.is_hanging = true ∧ s1.is_hanging = true then none
  else if s0.is_hanging = false ∧ s1.is_hanging = false then
    if me.with_faces then iter_face_conf me s0 s1 else some me
  else some (iter_face_hanging me s0 s1)

/-- Embeds `iter_volume1` (lines 186-209): checks that the whole element
block still holds the zero sentinel (the `memcmp` assert on lines
204-205), then places the owned node at the quadrant midpoint. -/
def zero_block (me : Meta) (le : Nat) : Bool :=
  (List.range me.vnodes).all (fun k => me.element_nodes.getD (le * me.vnodes + k) 0 == 0)

/-- Embeds `iter_volume1` (lines 186-209). -/
def iter_volume1 (me : Meta) : Option Meta :=
  let le := me.lenum
  if zero_block me le then
    match set_lnodes_corner_center { me with lenum := me.lenum + 1 } le (me.num_owned : Int) with
    | none => none
    | some me1 => some { me1 with num_owned := me1.num_owned + 1 }
  else none

/-- One callback invocation of the enumeration pass, as delivered by the
traversal driver `p4est_iterate` (line 595). -/
inductive Event where
  | volume : Event
  | bface : FaceSide → Event
  | face2 : FaceSide → FaceSide → Event
  | corner : Event
deriving Repr, DecidableEq

/-- Dispatch of one traversal callback. -/
def runEvent (me : Meta) (e : Event) : Option Meta :=
  match e with
  | .volume => iter_volume1 me
  | .bface s => iter_face_boundary me s
  | .face2 s0 s1 => iter_face_two me s0 s1
  | .corner => some (iter_corner1 me)

/-- The whole enumeration pass over a callback trace. -/
def runEvents (me : Meta) (t : List Event) : Option Meta :=
  match t with
  | [] => some me
  | e :: rest =>
    match runEvent me e with
    | none => none
    | some me1 => runEvents me1 rest

/-- A non-blocking request as handed to the transport by the posting
phase: a receive sized to the reply-obligation count, or a send of the
accumulated query-position list. -/
inductive Request where
  | recvQuery : Int → Nat → Request
  | sendQuery : Int → List Int → Request
deriving Repr, DecidableEq

/-- Embeds the per-peer body of `post_query_reply` (lines 416-442): the
asserts on the rank and on the buffer shapes become fatal on violation;
for a higher rank the `querypos` array is resized into a receive buffer
and `done` becomes 1; for a lower rank the accumulated query list is sent
and `done` becomes 3. -/
def post_peer (rank : Int) (p : Peer) : Option (Request × Peer) :=
  if p.rank = rank then none
  else if rank < p.rank then
    if 0 < p.bufcount ∧ p.querypos = [] then
      some (.recvQuery p.rank p.bufcount,
            { p with querypos := List.replicate p.bufcount 0, done := 1 })
    else none
  else
    if p.bufcount = 0 ∧ p.querypos ≠ [] then
      some (.sendQuery p.rank p.querypos,
            { p with bufcount := p.querypos.length, done := 3 })
    else none

/-- The posting pass over all peer records. -/
def post_all (rank : Int) (ps : List Peer) : Option (List Request × List Peer) :=
  match ps with
  | [] => some ([], [])
  | p :: rest =>
    match post_peer rank p with
    | none => none
    | some (rq, p') =>
      match post_all rank rest with
      | none => none
      | some (rqs, rest') => some (rq :: rqs, p' :: rest')

/-- Embeds `post_query_reply` (lines 405-444): one request per peer. -/
def post_query_reply (me : Meta) : Option (List Request × Meta) :=
  match post_all me.mpirank me.peers with
  | none => none
  | some (rqs, ps) => some (rqs, { me with peers := ps })

/-- Embeds the `pos_is_boundary` table (lines 67-70) used by the debug
assert while resolving received query positions. -/
def pos_is_boundary (k : Nat) : Bool :=
  [false, true, true, true, true, true, true, true, true,
   false, false, false, false, false, false, false, false,
   true, true, true, true, true, true, true, true].getD k false

/-- Embeds the resolution of one received flat position (lines 485-494 of
`wait_query_reply`): the position must address an owned element block at a
boundary slot, and the value found there must be an owned local index;
each violated assert is fatal. -/
def resolve_pos (vn : Nat) (owned : Nat) (nodes : List Int) (gpos : Int) : Option Int :=
  if 0 ≤ gpos ∧ gpos < (vn : Int) * (owned : Int) then
    if pos_is_boundary (gpos % (vn : Int)).toNat then
      let oind := nodes.getD gpos.toNat 0
      if 0 ≤ oind ∧ oind < (owned : Int) then some oind else none
    else none
  else none

/-- Embeds the in-place overwrite loop of the `EXPECT_QUERY` completion
(lines 483-495): every buffer entry is replaced, in order, by the owned
local index found at the queried position. -/
def resolve_queries (vn : Nat) (owned : Nat) (nodes : List Int) (buf : List Int) :
    Option (List Int) :=
  match buf with
  | [] => some []
  | g :: rest =>
    match resolve_pos vn owned nodes g with
    | none => none
    | some o =>
      match resolve_queries vn owned nodes rest with
      | none => none
      | some os => some (o :: os)

/-- Embeds the offset loop of `p4est_trimesh_new` (lines 611-614): the
running sum `gc` is appended for every rank. -/
def goffset_build (gc : Int) (counts : List Int) : List Int :=
  match counts with
  | [] => []
  | c :: rest => (gc + c) :: goffset_build (gc + c) rest

/-- The full offset table `me->goffset`: `goffset[0] = 0` (line 611)
followed by the running sums. -/
def goffsets (counts : List Int) : List Int :=
  0 :: goffset_build 0 counts

/-- `ln->global_offset = me->goffset[p]` (line 615). -/
def global_offset (counts : List Int) (p : Nat) : Int :=
  (goffsets counts).getD p 0

/-- The inner filling loop of the ghost-rank walk
(`for (; lg < ng; ++lg) ghost_rank[lg] = q`, lines 570-572), with the trip
count `ng - lg` made explicit. -/
def ghost_fill_aux (arr : List Int) (lg : Nat) (fuel : Nat) (q : Int) : List Int :=
  match fuel with
  | 0 => arr
  | fuel' + 1 => ghost_fill_aux (arr.set lg q) (lg + 1) fuel' q

/-- The inner filling loop of the ghost-rank walk. -/
def ghost_fill (arr : List Int) (lg ng : Nat) (q : Int) : List Int :=
  ghost_fill_aux arr lg (ng - lg) q

/-- The outer walk of the ghost-rank construction (lines 567-573): one
pass over the per-rank upper offsets, carrying the fill cursor `lg`. -/
def ghost_walk (arr : List Int) (lg : Nat) (q : Int) (offs : List Nat) : List Int :=
  match offs with
  | [] => arr
  | ng :: rest => ghost_walk (ghost_fill arr lg ng q) (max lg ng) (q + 1) rest

/-- Embeds the ghost-rank table construction of `p4est_trimesh_new`
(lines 562-574) from the full `proc_offsets` array (whose entry 0 is
skipped by the walk, which reads `proc_offsets[q + 1]`).  The freshly
allocated array is modelled with a `-1` sentinel in every entry. -/
def build_ghost_rank (nghosts : Nat) (offsets : List Nat) : List Int :=
  ghost_walk (List.replicate nghosts (-1)) 0 0 (offsets.drop 1)

/-- Embeds the state set up by `p4est_trimesh_new` before the enumeration
pass (lines 552-594): zeroed counters, a zero-initialized element-node
array of `nle * vnodes` slots, and the ghost-rank table and (empty) peer
registry only when a ghost layer is supplied. -/
def trimesh_init (wf : Bool) (size rank : Int) (nle : Nat)
    (ghost_offsets : Option (List Nat)) : Meta :=
  { with_faces := wf
    mpisize := size
    mpirank := rank
    has_ghost := ghost_offsets.isSome
    ghost_rank :=
      match ghost_offsets with
      | some offs => build_ghost_rank (offs.getLastD 0) offs
      | none => []
    peers := []
    remotepos := []
    lenum := 0
    num_owned := 0
    num_shared := 0
    num_local_elements := nle
    element_nodes := List.replicate (nle * (if wf then 25 else 9)) 0
    writelog := []
    replylog := []
    facelog := [] }

/-! ## Specification-side definitions

The definitions below restate parts of the claims in order to compare the
embedded code against them; they are not translations of the source. -/

/-- The participating ranks of one side of a conforming connection, in the
words of the claims: the own rank for a local side, the ghost-rank lookup
value for a ghost side. -/
def side_part (rank : Int) (gr : List Int) (s : FaceSide) : List Int :=
  if s.is_ghost = false then [rank]
  else if 0 ≤ s.quadid then [gr.getD s.quadid.toNat (-1)]
  else []

/-- The participating ranks of a conforming two-sided connection. -/
def part_ranks (rank : Int) (gr : List Int) (s0 s1 : FaceSide) : List Int :=
  side_part rank gr s0 ++ side_part rank gr s1

/-- Minimum of a rank list (the head serves as the default). -/
def ranks_min (l : List Int) : Int :=
  match l with
  | [] => 0
  | r :: rest => rest.foldl min r

/-- The element-node slot positions one event is expected to write, given
the fixed pass parameters and the running element counter: the interior
slot for a volume visit, the face slot of the single side of a boundary
face, and the face slot of every side carrying this rank on a conforming
connection. -/
def eventWrites (wf : Bool) (rank : Int) (gr : List Int) (vn : Nat) (len : Nat) :
    Event → List Nat
  | Event.volume => [len * vn]
  | Event.bface s => if wf then [s.le * 25 + pos_lnodes_face_full s.face] else []
  | Event.face2 s0 s1 =>
    if wf = true ∧ s0.is_hanging = false ∧ s1.is_hanging = false then
      (if sideQ rank gr s0 = rank then [s0.le * 25 + pos_lnodes_face_full s0.face] else []) ++
      (if sideQ rank gr s1 = rank then [s1.le * 25 + pos_lnodes_face_full s1.face] else [])
    else []
  | Event.corner => []

/-- The element-node slot positions a trace is expected to write. -/
def plannedWrites (wf : Bool) (rank : Int) (gr : List Int) (vn : Nat) :
    Nat → List Event → List Nat
  | _, [] => []
  | len, e :: rest =>
    eventWrites wf rank gr vn len e ++
      plannedWrites wf rank gr vn (len + if e = Event.volume then 1 else 0) rest

/-- Abbreviation for the node value assigned by the conforming branch:
`num_owned` when owned, the negative placeholder otherwise. -/
def confLni (me : Meta) (s0 s1 : FaceSide) : Int :=
  if (faceCalc me.mpirank me.ghost_rank s0 s1).is_owned then (me.num_owned : Int)
  else -1 - (me.num_shared : Int)

/-- Abbreviation for the state of the conforming branch after the counter
increment and the ghost face log, before the two sides are processed. -/
def confMid (me : Meta) (s0 s1 : FaceSide) : Meta :=
  if (faceCalc me.mpirank me.ghost_rank s0 s1).is_owned then
    { me with facelog := me.facelog ++ [me.num_owned], num_owned := me.num_owned + 1 }
  else
    { me with facelog := me.facelog ++ [me.num_owned], num_shared := me.num_shared + 1 }

/-- Modelled from the spec: the traversal driver (`p4est_iterate`, outside
the analyzed sources) enumerates the local elements and their adjacencies,
visiting the first local element before any two-sided face connection; the
trace therefore contains no two-sided face visit before the first volume
visit. -/
def volume_first : List Event → Prop
  | [] => True
  | Event.volume :: _ => True
  | Event.face2 _ _ :: _ => False
  | _ :: rest => volume_first rest

/-- Modelled from the spec: the traversal driver only visits face
connections adjacent to the local domain, so a conforming two-sided
connection always has at least one local (non-ghost) side. -/
def has_local_side : Event → Prop
  | Event.face2 s0 s1 =>
    s0.is_hanging = false → s1.is_hanging = false →
      (s0.is_ghost = false ∨ s1.is_ghost = false)
  | _ => True

/-- Modelled from the spec: with no ghost layer, remote neighbors cannot
be identified (there is no ghost array), so every ghost face side carries
a negative ghost index. -/
def no_ghost_entries : Event → Prop
  | Event.bface s => s.is_ghost = true → s.quadid < 0
  | Event.face2 s0 s1 =>
    (s0.is_ghost = true → s0.quadid < 0) ∧ (s1.is_ghost = true → s1.quadid < 0)
  | _ => True

/-- The peer-record dichotomy claimed for the start of the posting phase. -/
def PeerOK (rank : Int) (p : Peer) : Prop :=
  (rank < p.rank → 1 ≤ p.bufcount ∧ p.querypos = []) ∧
  (p.rank < rank → p.bufcount = 0 ∧ p.querypos ≠ []) ∧
  p.rank ≠ rank

/-! ## List helpers -/

theorem getD_set_eq (l : List Int) (i : Nat) (v d : Int) (h : i < l.length) :
    (l.set i v).getD i d = v := by
  induction l generalizing i with
  | nil => simp at h
  | cons a t ih =>
    cases i with
    | zero => simp [List.set, List.getD]
    | succ j =>
      simp only [List.length_cons, Nat.succ_lt_succ_iff] at h
      simpa [List.set, List.getD] using ih j h

theorem getD_set_ne (l : List Int) (i j : Nat) (v d : Int) (h : i ≠ j) :
    (l.set i v).getD j d = l.getD j d := by
  induction l generalizing i j with
  | nil => simp [List.set]
  | cons a t ih =>
    cases i with
    | zero =>
      cases j with
      | zero => exact absurd rfl h
      | succ j' => simp [List.set, List.getD]
    | succ i' =>
      cases j with
      | zero => simp [List.set, List.getD]
      | succ j' =>
        simp only [List.set, List.getD_cons_succ]
        exact ih i' j' (fun hc => h (by rw [hc]))

theorem getD_append_left {l r : List Int} {j : Nat} (d : Int) (h : j < l.length) :
    (l ++ r).getD j d = l.getD j d := by
  induction l generalizing j with
  | nil => simp at h
  | cons a t ih =>
    cases j with
    | zero => simp [List.getD]
    | succ j' =>
      simp only [List.length_cons, Nat.succ_lt_succ_iff] at h
      simpa [List.getD] using ih h

/-! ## Characterization of the embedded operations -/

theorem set_center_spec {me me' : Meta} {le : Nat} {lni : Int}
    (h : set_lnodes_corner_center me le lni = some me') :
    le < me.num_local_elements ∧
    me.element_nodes.getD (le * me.vnodes) 0 = 0 ∧
    me' = { me with element_nodes := me.element_nodes.set (le * me.vnodes) lni,
                    writelog := me.writelog ++ [le * me.vnodes] } := by
  by_cases hle : le < me.num_local_elements
  · by_cases hz : me.element_nodes.getD (le * me.vnodes) 0 = 0
    · simp only [set_lnodes_corner_center] at h
      rw [if_pos hle, if_pos hz] at h
      obtain rfl := Option.some.inj h
      exact ⟨hle, hz, rfl⟩
    · simp only [set_lnodes_corner_center] at h
      rw [if_pos hle, if_neg hz] at h
      exact absurd h (by simp)
  · simp only [set_lnodes_corner_center] at h
    rw [if_neg hle] at h
    exact absurd h (by simp)

theorem set_face_spec {me me' : Meta} {le face : Nat} {lni : Int}
    (h : set_lnodes_face_full me le face lni = some me') :
    me.with_faces = true ∧ le < me.num_local_elements ∧ face < 4 ∧
    me.element_nodes.getD (le * 25 + pos_lnodes_face_full face) 0 = 0 ∧
    me.element_nodes.getD (le * 25 + pos_lnodes_face_full face + 1) 0 = 0 ∧
    me' = { me with
            element_nodes := me.element_nodes.set (le * 25 + pos_lnodes_face_full face) lni,
            writelog := me.writelog ++ [le * 25 + pos_lnodes_face_full face],
            remotepos := if lni < 0 then me.remotepos ++ [le * 25 + pos_lnodes_face_full face]
                         else me.remotepos } := by
  by_cases hg : me.with_faces = true ∧ le < me.num_local_elements ∧ face < 4
  · by_cases hz : me.element_nodes.getD (le * 25 + pos_lnodes_face_full face) 0 = 0 ∧
        me.element_nodes.getD (le * 25 + pos_lnodes_face_full face + 1) 0 = 0
    · simp only [set_lnodes_face_full] at h
      rw [if_pos hg, if_pos hz] at h
      refine ⟨hg.1, hg.2.1, hg.2.2, hz.1, hz.2, ?_⟩
      by_cases hneg : lni < 0
      · rw [if_pos hneg] at h
        obtain rfl := Option.some.inj h
        rw [if_pos hneg]
      · rw [if_neg hneg] at h
        obtain rfl := Option.some.inj h
        rw [if_neg hneg]
    · simp only [set_lnodes_face_full] at h
      rw [if_pos hg, if_neg hz] at h
      exact absurd h (by simp)
  · simp only [set_lnodes_face_full] at h
    rw [if_neg hg] at h
    exact absurd h (by simp)

theorem find_peer_some {ps : List Peer} {q : Int} {i : Nat}
    (h : find_peer ps q = some i) :
    ∃ p, ps.get? i = some p ∧ p.rank = q := by
  induction ps generalizing i with
  | nil => simp [find_peer] at h
  | cons a t ih =>
    unfold find_peer at h
    split at h
    · cases h
      exact ⟨a, rfl, by assumption⟩
    · cases hi : find_peer t q with
      | none => rw [hi] at h; simp at h
      | some j =>
        rw [hi] at h
        have hji : j + 1 = i := by simpa using h
        obtain ⟨p, hp, hr⟩ := ih hi
        exact ⟨p, by rw [← hji]; simpa using hp, hr⟩

theorem find_peer_none {ps : List Peer} {q : Int}
    (h : find_peer ps q = none) :
    ∀ p ∈ ps, p.rank ≠ q := by
  induction ps with
  | nil => simp
  | cons a t ih =>
    unfold find_peer at h
    split at h
    · simp at h
    · intro p hp
      rcases List.mem_cons.mp hp with rfl | hmem
      · assumption
      · cases hi : find_peer t q with
        | none => exact ih hi p hmem
        | some j => rw [hi] at h; simp at h

theorem peer_access_spec {me me1 : Meta} {q : Int} {pi : Nat}
    (h : peer_access me q = some (me1, pi)) :
    (me.has_ghost = true ∧ 0 ≤ q ∧ q < me.mpisize ∧ q ≠ me.mpirank) ∧
    ((me1 = me ∧ ∃ p, me.peers.get? pi = some p ∧ p.rank = q) ∨
     (me1 = { me with peers := me.peers ++ [new_peer q] } ∧ pi = me.peers.length ∧
      ∀ p ∈ me.peers, p.rank ≠ q)) := by
  unfold peer_access at h
  split at h
  · rename_i hguard
    refine ⟨hguard, ?_⟩
    cases hf : find_peer me.peers q with
    | some i =>
      rw [hf] at h
      cases h
      exact Or.inl ⟨rfl, find_peer_some hf⟩
    | none =>
      rw [hf] at h
      cases h
      exact Or.inr ⟨rfl, rfl, find_peer_none hf⟩
  · exact absurd h (by simp)

theorem peer_update_spec {me me' : Meta} {i : Nat} {f : Peer → Option Peer}
    (h : peer_update me i f = some me') :
    ∃ p p', me.peers.get? i = some p ∧ f p = some p' ∧
      me' = { me with peers := me.peers.set i p' } := by
  unfold peer_update at h
  split at h
  · exact absurd h (by simp)
  · rename_i p hg
    split at h
    · exact absurd h (by simp)
    · rename_i p' hf
      exact ⟨p, p', hg, hf, (Option.some.inj h).symm⟩

theorem peer_add_reply_spec {p p' : Peer} {lni : Int}
    (h : peer_add_reply p lni = some p') :
    0 < lni ∧ p.lastadd ≤ lni ∧
    ((p.lastadd = lni ∧ p' = p) ∨
     (p.lastadd ≠ lni ∧ p' = { p with bufcount := p.bufcount + 1, lastadd := lni })) := by
  by_cases h1 : 0 < lni
  · by_cases h2 : p.lastadd ≤ lni
    · by_cases h3 : p.lastadd ≠ lni
      · simp only [peer_add_reply] at h
        rw [if_pos h1, if_pos h2, if_pos h3] at h
        exact ⟨h1, h2, Or.inr ⟨h3, (Option.some.inj h).symm⟩⟩
      · simp only [peer_add_reply] at h
        rw [if_pos h1, if_pos h2, if_neg h3] at h
        push_neg at h3
        exact ⟨h1, h2, Or.inl ⟨h3, (Option.some.inj h).symm⟩⟩
    · simp only [peer_add_reply] at h
      rw [if_pos h1, if_neg h2] at h
      exact absurd h (by simp)
  · simp only [peer_add_reply] at h
    rw [if_neg h1] at h
    exact absurd h (by simp)

theorem peer_add_query_spec {p p' : Peer} {gpos lni : Int}
    (h : peer_add_query p gpos lni = some p') :
    0 ≤ gpos ∧ lni < 0 ∧ p.localind.length = p.querypos.length ∧ lni ≤ p.lastadd ∧
    ((p.lastadd = lni ∧ p' = p) ∨
     (p.lastadd ≠ lni ∧
      p' = { p with localind := p.localind ++ [lni], querypos := p.querypos ++ [gpos],
                    lastadd := lni })) := by
  by_cases h1 : 0 ≤ gpos
  · by_cases h2 : lni < 0
    · by_cases h3 : p.localind.length = p.querypos.length
      · by_cases h4 : lni ≤ p.lastadd
        · by_cases h5 : p.lastadd ≠ lni
          · simp only [peer_add_query] at h
            rw [if_pos h1, if_pos h2, if_pos h3, if_pos h4, if_pos h5] at h
            exact ⟨h1, h2, h3, h4, Or.inr ⟨h5, (Option.some.inj h).symm⟩⟩
          · simp only [peer_add_query] at h
            rw [if_pos h1, if_pos h2, if_pos h3, if_pos h4, if_neg h5] at h
            push_neg at h5
            exact ⟨h1, h2, h3, h4, Or.inl ⟨h5, (Option.some.inj h).symm⟩⟩
        · simp only [peer_add_query] at h
          rw [if_pos h1, if_pos h2, if_pos h3, if_neg h4] at h
          exact absurd h (by simp)
      · simp only [peer_add_query] at h
        rw [if_pos h1, if_pos h2, if_neg h3] at h
        exact absurd h (by simp)
    · simp only [peer_add_query] at h
      rw [if_pos h1, if_neg h2] at h
      exact absurd h (by simp)
  · simp only [peer_add_query] at h
    rw [if_neg h1] at h
    exact absurd h (by simp)

theorem face_side_proc_cases {me me' : Meta} {s : FaceSide} {q : Int} {c : FaceCalc}
    {lni : Int} (h : face_side_proc me s q c lni = some me') :
    (q = me.mpirank ∧ set_lnodes_face_full me s.le s.face lni = some me') ∨
    (q ≠ me.mpirank ∧ 0 ≤ q ∧
     ∃ me1 pi, peer_access me q = some (me1, pi) ∧
       ((c.is_owned = true ∧ me.mpirank < q ∧
         peer_update { me1 with replylog := me1.replylog ++ [lni] } pi
           (fun p => peer_add_reply p lni) = some me') ∨
        (c.is_owned = false ∧ q = c.owner ∧ q < me.mpirank ∧
         peer_update me1 pi (fun p => peer_add_query p (gpos_of me1.vnodes s) lni) =
           some me') ∨
        (c.is_owned = false ∧ q ≠ c.owner ∧ c.owner < me.mpirank ∧ c.owner < q ∧
         me' = me1))) ∨
    (q < 0 ∧ ¬q = me.mpirank ∧ me' = me) := by
  unfold face_side_proc at h
  by_cases hq : q = me.mpirank
  · rw [if_pos hq] at h
    exact Or.inl ⟨hq, h⟩
  · rw [if_neg hq] at h
    by_cases hq0 : 0 ≤ q
    · rw [if_pos hq0] at h
      refine Or.inr (Or.inl ⟨hq, hq0, ?_⟩)
      split at h
      · exact absurd h (by simp)
      · rename_i me1 pi hpa
        refine ⟨me1, pi, hpa, ?_⟩
        have hrk : me1.mpirank = me.mpirank := by
          rcases (peer_access_spec hpa).2 with ⟨rfl, _⟩ | ⟨rfl, _, _⟩
          · rfl
          · rfl
        by_cases how : c.is_owned
        · rw [if_pos how] at h
          by_cases hlt : me1.mpirank < q
          · rw [if_pos hlt] at h
            exact Or.inl ⟨how, by rwa [hrk] at hlt, h⟩
          · rw [if_neg hlt] at h
            exact absurd h (by simp)
        · rw [if_neg how] at h
          by_cases hco : q = c.owner
          · rw [if_pos hco] at h
            by_cases hlt : q < me1.mpirank
            · rw [if_pos hlt] at h
              exact Or.inr (Or.inl ⟨by simpa using how, hco, by rwa [hrk] at hlt, h⟩)
            · rw [if_neg hlt] at h
              exact absurd h (by simp)
          · rw [if_neg hco] at h
            by_cases hcc : c.owner < me1.mpirank ∧ c.owner < q
            · rw [if_pos hcc] at h
              exact Or.inr (Or.inr ⟨by simpa using how, hco, by rw [← hrk]; exact hcc.1,
                hcc.2, (Option.some.inj h).symm⟩)
            · rw [if_neg hcc] at h
              exact absurd h (by simp)
    · rw [if_neg hq0] at h
      exact Or.inr (Or.inr ⟨by omega, hq, (Option.some.inj h).symm⟩)

theorem face_side_proc_const {me me' : Meta} {s : FaceSide} {q : Int} {c : FaceCalc}
    {lni : Int} (h : face_side_proc me s q c lni = some me') :
    me'.with_faces = me.with_faces ∧ me'.mpisize = me.mpisize ∧
    me'.mpirank = me.mpirank ∧ me'.has_ghost = me.has_ghost ∧
    me'.ghost_rank = me.ghost_rank ∧ me'.num_local_elements = me.num_local_elements ∧
    me'.lenum = me.lenum ∧ me'.num_owned = me.num_owned ∧
    me'.num_shared = me.num_shared ∧ me'.facelog = me.facelog := by
  rcases face_side_proc_cases h with ⟨hq, hset⟩ | ⟨hq, hq0, me1, pi, hpa, hbr⟩ |
    ⟨hneg, hq, rfl⟩
  · obtain ⟨-, -, -, -, -, rfl⟩ := set_face_spec hset
    simp
  · rcases (peer_access_spec hpa).2 with ⟨rfl, -⟩ | ⟨rfl, -, -⟩ <;>
      rcases hbr with ⟨-, -, hup⟩ | ⟨-, -, -, hup⟩ | ⟨-, -, -, -, rfl⟩ <;>
      first
        | (obtain ⟨p, p', -, -, rfl⟩ := peer_update_spec hup; simp)
        | simp
  · exact ⟨rfl, rfl, rfl, rfl, rfl, rfl, rfl, rfl, rfl, rfl⟩

theorem face_side_proc_remote_frame {me me' : Meta} {s : FaceSide} {q : Int}
    {c : FaceCalc} {lni : Int} (h : face_side_proc me s q c lni = some me')
    (hq : q ≠ me.mpirank) :
    me'.element_nodes = me.element_nodes ∧ me'.writelog = me.writelog ∧
    me'.remotepos = me.remotepos := by
  rcases face_side_proc_cases h with ⟨hq', -⟩ | ⟨-, -, me1, pi, hpa, hbr⟩ | ⟨-, -, rfl⟩
  · exact absurd hq' hq
  · rcases (peer_access_spec hpa).2 with ⟨rfl, -⟩ | ⟨rfl, -, -⟩ <;>
      rcases hbr with ⟨-, -, hup⟩ | ⟨-, -, -, hup⟩ | ⟨-, -, -, -, rfl⟩ <;>
      first
        | (obtain ⟨p, p', -, -, rfl⟩ := peer_update_spec hup; simp)
        | simp
  · exact ⟨rfl, rfl, rfl⟩

theorem face_side_proc_local_frame {me me' : Meta} {s : FaceSide} {q : Int}
    {c : FaceCalc} {lni : Int} (h : face_side_proc me s q c lni = some me')
    (hq : q = me.mpirank ∨ q < 0) :
    me'.peers = me.peers ∧ me'.replylog = me.replylog := by
  rcases face_side_proc_cases h with ⟨-, hset⟩ | ⟨hq', hq0, -⟩ | ⟨-, -, rfl⟩
  · obtain ⟨-, -, -, -, -, rfl⟩ := set_face_spec hset
    simp
  · rcases hq with hq | hq
    · exact absurd hq hq'
    · omega
  · exact ⟨rfl, rfl⟩

theorem face_side_proc_replylog {me me' : Meta} {s : FaceSide} {q : Int} {c : FaceCalc}
    {lni : Int} (h : face_side_proc me s q c lni = some me') :
    me'.replylog = me.replylog ∨
    (me'.replylog = me.replylog ++ [lni] ∧ c.is_owned = true) := by
  rcases face_side_proc_cases h with ⟨-, hset⟩ | ⟨-, -, me1, pi, hpa, hbr⟩ | ⟨-, -, rfl⟩
  · obtain ⟨-, -, -, -, -, rfl⟩ := set_face_spec hset
    simp
  · rcases (peer_access_spec hpa).2 with ⟨rfl, -⟩ | ⟨rfl, -, -⟩ <;>
      rcases hbr with ⟨how, -, hup⟩ | ⟨-, -, -, hup⟩ | ⟨-, -, -, -, rfl⟩ <;>
      first
        | (obtain ⟨p, p', -, -, rfl⟩ := peer_update_spec hup; first
            | exact Or.inr ⟨by simp, how⟩
            | exact Or.inl (by simp))
        | exact Or.inl (by simp)
  · exact Or.inl rfl

theorem iter_volume1_spec {me me' : Meta} (h : iter_volume1 me = some me') :
    zero_block me me.lenum = true ∧ me.lenum < me.num_local_elements ∧
    me.element_nodes.getD (me.lenum * me.vnodes) 0 = 0 ∧
    me' = { me with
            lenum := me.lenum + 1
            num_owned := me.num_owned + 1
            element_nodes := me.element_nodes.set (me.lenum * me.vnodes) (me.num_owned : Int)
            writelog := me.writelog ++ [me.lenum * me.vnodes] } := by
  unfold iter_volume1 at h
  by_cases hz : zero_block me me.lenum = true
  · rw [if_pos hz] at h
    split at h
    · exact absurd h (by simp)
    · rename_i me1 hset
      obtain ⟨hle, hz0, rfl⟩ := set_center_spec hset
      obtain rfl := Option.some.inj h
      exact ⟨hz, hle, hz0, rfl⟩
  · rw [if_neg (by simpa using hz)] at h
    exact absurd h (by simp)

theorem iter_face_boundary_spec {me me' : Meta} {s : FaceSide}
    (h : iter_face_boundary me s = some me') :
    s.is_hanging = false ∧ s.is_ghost = false ∧
    ((me.with_faces = true ∧
      ∃ me1, set_lnodes_face_full me s.le s.face (me.num_owned : Int) = some me1 ∧
        me' = { me1 with num_owned := me1.num_owned + 1 }) ∨
     (me.with_faces = false ∧ me' = me)) := by
  unfold iter_face_boundary at h
  by_cases hg : s.is_hanging = false ∧ s.is_ghost = false
  · rw [if_pos hg] at h
    refine ⟨hg.1, hg.2, ?_⟩
    by_cases hwf : me.with_faces
    · rw [if_pos hwf] at h
      split at h
      · exact absurd h (by simp)
      · rename_i me1 hset
        exact Or.inl ⟨hwf, me1, hset, (Option.some.inj h).symm⟩
    · rw [if_neg hwf] at h
      exact Or.inr ⟨by simpa using hwf, (Option.some.inj h).symm⟩
  · rw [if_neg hg] at h
    exact absurd h (by simp)

theorem iter_face_conf_split {me me' : Meta} {s0 s1 : FaceSide}
    (h : iter_face_conf me s0 s1 = some me') :
    ∃ me2,
      face_side_proc (confMid me s0 s1) s0 (sideQ me.mpirank me.ghost_rank s0)
        (faceCalc me.mpirank me.ghost_rank s0 s1) (confLni me s0 s1) = some me2 ∧
      face_side_proc me2 s1 (sideQ me.mpirank me.ghost_rank s1)
        (faceCalc me.mpirank me.ghost_rank s0 s1) (confLni me s0 s1) = some me' := by
  unfold iter_face_conf at h
  dsimp only at h
  split at h
  · exact absurd h (by simp)
  · rename_i me2 hfirst
    refine ⟨me2, ?_, h⟩
    by_cases how : (faceCalc me.mpirank me.ghost_rank s0 s1).is_owned
    · simpa [confMid, confLni, how] using hfirst
    · simpa [confMid, confLni, how] using hfirst

theorem iter_face_two_cases {me me' : Meta} {s0 s1 : FaceSide}
    (h : iter_face_two me s0 s1 = some me') :
    (s0.is_hanging = false ∧ s1.is_hanging = false ∧ me.with_faces = true ∧
     iter_face_conf me s0 s1 = some me') ∨
    (s0.is_hanging = false ∧ s1.is_hanging = false ∧ me.with_faces = false ∧ me' = me) ∨
    ((s0.is_hanging = true ∨ s1.is_hanging = true) ∧
     ¬(s0.is_hanging = true ∧ s1.is_hanging = true) ∧ me' = me) := by
  unfold iter_face_two at h
  by_cases hb : s0.is_hanging = true ∧ s1.is_hanging = true
  · rw [if_pos hb] at h
    exact absurd h (by simp)
  · rw [if_neg hb] at h
    by_cases hc : s0.is_hanging = false ∧ s1.is_hanging = false
    · rw [if_pos hc] at h
      by_cases hwf : me.with_faces
      · rw [if_pos hwf] at h
        exact Or.inl ⟨hc.1, hc.2, hwf, h⟩
      · rw [if_neg hwf] at h
        exact Or.inr (Or.inl ⟨hc.1, hc.2, by simpa using hwf, (Option.some.inj h).symm⟩)
    · rw [if_neg hc] at h
      have : s0.is_hanging = true ∨ s1.is_hanging = true := by
        rcases Bool.eq_false_or_eq_true s0.is_hanging with h0 | h0 <;>
          rcases Bool.eq_false_or_eq_true s1.is_hanging with h1 | h1 <;>
          simp_all
      exact Or.inr (Or.inr ⟨this, hb, by
        simpa [iter_face_hanging] using (Option.some.inj h).symm⟩)

theorem faceStep2_facts (r q0 q1 : Int) :
    ((faceStep (faceStep ⟨r, true⟩ q0) q1).is_owned = true →
      (faceStep (faceStep ⟨r, true⟩ q0) q1).owner = r) ∧
    ((faceStep (faceStep ⟨r, true⟩ q0) q1).is_owned = false →
      (faceStep (faceStep ⟨r, true⟩ q0) q1).owner < r ∧
      ((faceStep (faceStep ⟨r, true⟩ q0) q1).owner = q0 ∨
       (faceStep (faceStep ⟨r, true⟩ q0) q1).owner = q1)) ∧
    (faceStep (faceStep ⟨r, true⟩ q0) q1).owner ≤ r ∧
    (0 ≤ q0 → (faceStep (faceStep ⟨r, true⟩ q0) q1).owner ≤ q0) ∧
    (0 ≤ q1 → (faceStep (faceStep ⟨r, true⟩ q0) q1).owner ≤ q1) := by
  unfold faceStep
  split_ifs <;> simp_all <;> omega

theorem faceCalc_eq (r : Int) (gr : List Int) (s0 s1 : FaceSide) :
    faceCalc r gr s0 s1 =
      faceStep (faceStep ⟨r, true⟩ (sideQ r gr s0)) (sideQ r gr s1) := rfl

theorem sideQ_local {r : Int} {gr : List Int} {s : FaceSide} (h : s.is_ghost = false) :
    sideQ r gr s = r := by
  simp [sideQ, h]

theorem conf_hside0 (r : Int) (gr : List Int) (s0 s1 : FaceSide)
    (hloc : s0.is_ghost = false ∨ s1.is_ghost = false) :
    sideQ r gr s0 = r ∨ sideQ r gr s0 < 0 ∨ (faceCalc r gr s0 s1).is_owned = true ∨
    ((faceCalc r gr s0 s1).is_owned = false ∧ sideQ r gr s0 = (faceCalc r gr s0 s1).owner) := by
  rcases hloc with h0 | h1
  · exact Or.inl (sideQ_local h0)
  · by_cases how : (faceCalc r gr s0 s1).is_owned = true
    · exact Or.inr (Or.inr (Or.inl how))
    · have hof := faceStep2_facts r (sideQ r gr s0) (sideQ r gr s1)
      rw [← faceCalc_eq] at hof
      have hno : (faceCalc r gr s0 s1).is_owned = false := by
        simpa using how
      obtain ⟨hlt, hcase⟩ := hof.2.1 hno
      rcases hcase with hc | hc
      · exact Or.inr (Or.inr (Or.inr ⟨hno, hc.symm⟩))
      · rw [sideQ_local h1] at hc
        omega

theorem conf_hside1 (r : Int) (gr : List Int) (s0 s1 : FaceSide)
    (hloc : s0.is_ghost = false ∨ s1.is_ghost = false) :
    sideQ r gr s1 = r ∨ sideQ r gr s1 < 0 ∨ (faceCalc r gr s0 s1).is_owned = true ∨
    ((faceCalc r gr s0 s1).is_owned = false ∧ sideQ r gr s1 = (faceCalc r gr s0 s1).owner) := by
  rcases hloc with h0 | h1
  · by_cases how : (faceCalc r gr s0 s1).is_owned = true
    · exact Or.inr (Or.inr (Or.inl how))
    · have hof := faceStep2_facts r (sideQ r gr s0) (sideQ r gr s1)
      rw [← faceCalc_eq] at hof
      have hno : (faceCalc r gr s0 s1).is_owned = false := by
        simpa using how
      obtain ⟨hlt, hcase⟩ := hof.2.1 hno
      rcases hcase with hc | hc
      · rw [sideQ_local h0] at hc
        omega
      · exact Or.inr (Or.inr (Or.inr ⟨hno, hc.symm⟩))
  · exact Or.inl (sideQ_local h1)

theorem mem_set_peer {ps : List Peer} {i : Nat} {p' x : Peer} (h : x ∈ ps.set i p') :
    x = p' ∨ x ∈ ps := by
  induction ps generalizing i with
  | nil => simp [List.set] at h
  | cons a t ih =>
    cases i with
    | zero =>
      rcases List.mem_cons.mp h with h | h
      · exact Or.inl h
      · exact Or.inr (List.mem_cons_of_mem a h)
    | succ j =>
      rcases List.mem_cons.mp h with h | h
      · exact Or.inr (h ▸ List.mem_cons_self a t)
      · rcases ih h with h | h
        · exact Or.inl h
        · exact Or.inr (List.mem_cons_of_mem a h)

theorem set_append_singleton (ps : List Peer) (np p' : Peer) :
    (ps ++ [np]).set ps.length p' = ps ++ [p'] := by
  induction ps with
  | nil => rfl
  | cons a t ih => simp [List.set, ih]

theorem mem_of_get_peer {ps : List Peer} {i : Nat} {p : Peer}
    (h : ps.get? i = some p) : p ∈ ps := by
  induction ps generalizing i with
  | nil => simp at h
  | cons a t ih =>
    cases i with
    | zero => exact (Option.some.inj h) ▸ List.mem_cons_self a t
    | succ j => exact List.mem_cons_of_mem a (ih (by simpa using h))

theorem get_len_append (ps : List Peer) (a : Peer) :
    (ps ++ [a]).get? ps.length = some a := by
  induction ps with
  | nil => rfl
  | cons b t ih => simpa using ih

theorem face_side_proc_peerok {me me' : Meta} {s : FaceSide} {q : Int} {c : FaceCalc}
    {lni : Int} (h : face_side_proc me s q c lni = some me')
    (hok : ∀ p ∈ me.peers, PeerOK me.mpirank p)
    (hside : q = me.mpirank ∨ q < 0 ∨ c.is_owned = true ∨
      (c.is_owned = false ∧ q = c.owner)) :
    ∀ p ∈ me'.peers, PeerOK me.mpirank p := by
  rcases face_side_proc_cases h with ⟨-, hset⟩ | ⟨hq, hq0, me1, pi, hpa, hbr⟩ | ⟨-, -, rfl⟩
  · obtain ⟨-, -, -, -, -, rfl⟩ := set_face_spec hset
    simpa using hok
  · obtain ⟨⟨hg, hq0', hqs, hqr⟩, hacc⟩ := peer_access_spec hpa
    rcases hbr with ⟨how, hlt, hup⟩ | ⟨hno, hco, hlt, hup⟩ | ⟨hno, hnco, -, -, rfl⟩
    · obtain ⟨p0, p0', hget, hadd, rfl⟩ := peer_update_spec hup
      obtain ⟨ha1, ha2, hbr'⟩ := peer_add_reply_spec hadd
      rcases hacc with ⟨heq, pf, hpf, hpfr⟩ | ⟨heq, hpi, hnew⟩
      · have hget1 : me.peers.get? pi = some p0 := by
          have hget0 : me1.peers.get? pi = some p0 := by simpa using hget
          rw [heq] at hget0
          exact hget0
        have hp0mem : p0 ∈ me.peers := mem_of_get_peer hget1
        have hp0ok := hok p0 hp0mem
        have hp0r : p0.rank = q := by
          have hpe : pf = p0 := Option.some.inj (hpf.symm.trans hget1)
          rw [← hpe]
          exact hpfr
        have hhigher := hp0ok.1 (by rw [hp0r]; exact hlt)
        have hok' : PeerOK me.mpirank p0' := by
          rcases hbr' with ⟨-, rfl⟩ | ⟨-, rfl⟩
          · exact hp0ok
          · refine ⟨fun _ => ⟨?_, hhigher.2⟩, fun hc => ?_, ?_⟩
            · show 1 ≤ p0.bufcount + 1
              omega
            · have hc2 : p0.rank < me.mpirank := hc
              rw [hp0r] at hc2
              exact absurd hc2 (by omega)
            · show p0.rank ≠ me.mpirank
              rw [hp0r]
              omega
        intro x hx
        have hx1 : x ∈ me.peers.set pi p0' := by
          have hx0 : x ∈ me1.peers.set pi p0' := by simpa using hx
          rw [heq] at hx0
          exact hx0
        rcases mem_set_peer hx1 with rfl | hxm
        · exact hok'
        · exact hok x hxm
      · subst heq
        subst hpi
        have hp0 : p0 = new_peer q := by
          have hlen := get_len_append me.peers (new_peer q)
          have hh : (me.peers ++ [new_peer q]).get? me.peers.length = some p0 := by
            simpa using hget
          exact (Option.some.inj (hlen ▸ hh)).symm
        subst hp0
        have hdup : ¬((new_peer q).lastadd = lni) := by
          simp only [new_peer]
          omega
        have hp0' : p0' = { new_peer q with bufcount := 1, lastadd := lni } := by
          rcases hbr' with ⟨hdd, -⟩ | ⟨-, rfl⟩
          · exact absurd hdd hdup
          · rfl
        subst hp0'
        intro x hx
        simp only at hx
        rw [set_append_singleton] at hx
        rcases List.mem_append.mp hx with hxm | hxe
        · exact hok x hxm
        · have hxeq : x = { new_peer q with bufcount := 1, lastadd := lni } := by
            simpa using hxe
          subst hxeq
          refine ⟨fun _ => ⟨by simp [new_peer], by simp [new_peer]⟩, fun hc => ?_, ?_⟩
          · simp only [new_peer] at hc
            omega
          · simp only [new_peer]
            omega
    · obtain ⟨p0, p0', hget, hadd, rfl⟩ := peer_update_spec hup
      obtain ⟨ha1, ha2, ha3, ha4, hbr'⟩ := peer_add_query_spec hadd
      rcases hacc with ⟨heq, pf, hpf, hpfr⟩ | ⟨heq, hpi, hnew⟩
      · have hget1 : me.peers.get? pi = some p0 := by
          have hget0 : me1.peers.get? pi = some p0 := by simpa using hget
          rw [heq] at hget0
          exact hget0
        have hp0mem : p0 ∈ me.peers := mem_of_get_peer hget1
        have hp0ok := hok p0 hp0mem
        have hp0r : p0.rank = q := by
          have hpe : pf = p0 := Option.some.inj (hpf.symm.trans hget1)
          rw [← hpe]
          exact hpfr
        have hlower := hp0ok.2.1 (by rw [hp0r]; exact hlt)
        have hok' : PeerOK me.mpirank p0' := by
          rcases hbr' with ⟨-, rfl⟩ | ⟨-, rfl⟩
          · exact hp0ok
          · refine ⟨fun hc => ?_, fun _ => ⟨hlower.1, by simp⟩, ?_⟩
            · have hc2 : me.mpirank < p0.rank := hc
              rw [hp0r] at hc2
              exact absurd hc2 (by omega)
            · show p0.rank ≠ me.mpirank
              rw [hp0r]
              omega
        intro x hx
        have hx1 : x ∈ me.peers.set pi p0' := by
          have hx0 : x ∈ me1.peers.set pi p0' := by simpa using hx
          rw [heq] at hx0
          exact hx0
        rcases mem_set_peer hx1 with rfl | hxm
        · exact hok'
        · exact hok x hxm
      · subst heq
        subst hpi
        have hp0 : p0 = new_peer q := by
          have hlen := get_len_append me.peers (new_peer q)
          have hh : (me.peers ++ [new_peer q]).get? me.peers.length = some p0 := by
            simpa using hget
          exact (Option.some.inj (hlen ▸ hh)).symm
        subst hp0
        have hdup : ¬((new_peer q).lastadd = lni) := by
          simp only [new_peer]
          omega
        rcases hbr' with ⟨hdd, -⟩ | ⟨-, rfl⟩
        · exact absurd hdd hdup
        · intro x hx
          simp only at hx
          rw [set_append_singleton] at hx
          rcases List.mem_append.mp hx with hxm | hxe
          · exact hok x hxm
          · have hxeq := List.mem_singleton.mp hxe
            subst hxeq
            refine ⟨fun hc => ?_, fun _ => ⟨by simp [new_peer], by simp [new_peer]⟩, ?_⟩
            · simp only [new_peer] at hc
              omega
            · simp only [new_peer]
              omega
    · rcases hside with hx | hx | hx | ⟨hx1, hx2⟩
      · exact absurd hx hq
      · omega
      · rw [hx] at hno
        exact absurd hno (by simp)
      · exact absurd hx2 hnco
  · exact hok

/-- The pass-constant fields of the context. -/
def sameConst (a b : Meta) : Prop :=
  a.with_faces = b.with_faces ∧ a.mpisize = b.mpisize ∧ a.mpirank = b.mpirank ∧
  a.has_ghost = b.has_ghost ∧ a.ghost_rank = b.ghost_rank ∧
  a.num_local_elements = b.num_local_elements

theorem sameConst_refl (a : Meta) : sameConst a a :=
  ⟨rfl, rfl, rfl, rfl, rfl, rfl⟩

theorem sameConst_trans {a b c : Meta} (h1 : sameConst a b) (h2 : sameConst b c) :
    sameConst a c :=
  ⟨h1.1.trans h2.1, h1.2.1.trans h2.2.1, h1.2.2.1.trans h2.2.2.1,
   h1.2.2.2.1.trans h2.2.2.2.1, h1.2.2.2.2.1.trans h2.2.2.2.2.1,
   h1.2.2.2.2.2.trans h2.2.2.2.2.2⟩

theorem face_side_proc_sameConst {me me' : Meta} {s : FaceSide} {q : Int} {c : FaceCalc}
    {lni : Int} (h : face_side_proc me s q c lni = some me') : sameConst me' me := by
  have t := face_side_proc_const h
  exact ⟨t.1, t.2.1, t.2.2.1, t.2.2.2.1, t.2.2.2.2.1, t.2.2.2.2.2.1⟩

theorem confMid_proj (me : Meta) (s0 s1 : FaceSide) :
    sameConst (confMid me s0 s1) me ∧ (confMid me s0 s1).peers = me.peers ∧
    (confMid me s0 s1).element_nodes = me.element_nodes ∧
    (confMid me s0 s1).writelog = me.writelog ∧
    (confMid me s0 s1).remotepos = me.remotepos ∧
    (confMid me s0 s1).replylog = me.replylog ∧
    (confMid me s0 s1).facelog = me.facelog ++ [me.num_owned] ∧
    (confMid me s0 s1).lenum = me.lenum := by
  unfold confMid sameConst
  split_ifs <;> simp

theorem confMid_counters (me : Meta) (s0 s1 : FaceSide) :
    ((faceCalc me.mpirank me.ghost_rank s0 s1).is_owned = true →
      (confMid me s0 s1).num_owned = me.num_owned + 1 ∧
      (confMid me s0 s1).num_shared = me.num_shared) ∧
    ((faceCalc me.mpirank me.ghost_rank s0 s1).is_owned = false →
      (confMid me s0 s1).num_owned = me.num_owned ∧
      (confMid me s0 s1).num_shared = me.num_shared + 1) := by
  unfold confMid
  split_ifs with hh <;> constructor <;> intro hx <;> simp_all

theorem iter_volume1_frame {me me' : Meta} (h : iter_volume1 me = some me') :
    me'.peers = me.peers ∧ me'.replylog = me.replylog ∧ me'.facelog = me.facelog ∧
    me'.remotepos = me.remotepos ∧ me'.num_shared = me.num_shared := by
  obtain ⟨-, -, -, rfl⟩ := iter_volume1_spec h
  simp

theorem iter_face_boundary_frame {me me' : Meta} {s : FaceSide}
    (h : iter_face_boundary me s = some me') :
    me'.peers = me.peers ∧ me'.replylog = me.replylog ∧ me'.facelog = me.facelog ∧
    me'.remotepos = me.remotepos ∧ me'.num_shared = me.num_shared := by
  obtain ⟨-, -, hcase⟩ := iter_face_boundary_spec h
  rcases hcase with ⟨-, me1, hset, rfl⟩ | ⟨-, rfl⟩
  · obtain ⟨-, -, -, -, -, rfl⟩ := set_face_spec hset
    have hnn : ¬((me.num_owned : Int) < 0) := by omega
    simp [hnn]
  · exact ⟨rfl, rfl, rfl, rfl, rfl⟩

theorem runEvent_sameConst {me me' : Meta} {e : Event} (h : runEvent me e = some me') :
    sameConst me' me := by
  cases e with
  | volume =>
    obtain ⟨-, -, -, rfl⟩ := iter_volume1_spec h
    exact ⟨rfl, rfl, rfl, rfl, rfl, rfl⟩
  | bface s =>
    obtain ⟨-, -, hcase⟩ := iter_face_boundary_spec h
    rcases hcase with ⟨-, me1, hset, rfl⟩ | ⟨-, rfl⟩
    · obtain ⟨-, -, -, -, -, rfl⟩ := set_face_spec hset
      exact ⟨rfl, rfl, rfl, rfl, rfl, rfl⟩
    · exact sameConst_refl _
  | face2 s0 s1 =>
    rcases iter_face_two_cases h with ⟨-, -, -, hconf⟩ | ⟨-, -, -, rfl⟩ | ⟨-, -, rfl⟩
    · obtain ⟨me2, h1, h2⟩ := iter_face_conf_split hconf
      exact sameConst_trans (face_side_proc_sameConst h2)
        (sameConst_trans (face_side_proc_sameConst h1) (confMid_proj me s0 s1).1)
    · exact sameConst_refl _
    · exact sameConst_refl _
  | corner =>
    have hh : me' = me := by
      simpa [runEvent, iter_corner1] using h.symm
    exact hh ▸ sameConst_refl me

theorem runEvent_peerok {me me' : Meta} {e : Event} (h : runEvent me e = some me')
    (hloc : has_local_side e) (hok : ∀ p ∈ me.peers, PeerOK me.mpirank p) :
    ∀ p ∈ me'.peers, PeerOK me.mpirank p := by
  cases e with
  | volume =>
    rw [(iter_volume1_frame h).1]
    exact hok
  | bface s =>
    rw [(iter_face_boundary_frame h).1]
    exact hok
  | face2 s0 s1 =>
    rcases iter_face_two_cases h with ⟨hh0, hh1, -, hconf⟩ | ⟨-, -, -, rfl⟩ | ⟨-, -, rfl⟩
    · obtain ⟨me2, h1, h2⟩ := iter_face_conf_split hconf
      have hcm := confMid_proj me s0 s1
      have hlocs : s0.is_ghost = false ∨ s1.is_ghost = false := hloc hh0 hh1
      have hok1 : ∀ p ∈ (confMid me s0 s1).peers, PeerOK (confMid me s0 s1).mpirank p := by
        rw [hcm.2.1, hcm.1.2.2.1]
        exact hok
      have hside0 := conf_hside0 me.mpirank me.ghost_rank s0 s1 hlocs
      have hside0' : sideQ me.mpirank me.ghost_rank s0 = (confMid me s0 s1).mpirank ∨
          sideQ me.mpirank me.ghost_rank s0 < 0 ∨
          (faceCalc me.mpirank me.ghost_rank s0 s1).is_owned = true ∨
          ((faceCalc me.mpirank me.ghost_rank s0 s1).is_owned = false ∧
           sideQ me.mpirank me.ghost_rank s0 =
             (faceCalc me.mpirank me.ghost_rank s0 s1).owner) := by
        rw [hcm.1.2.2.1]
        exact hside0
      have hok2 := face_side_proc_peerok h1 hok1 hside0'
      have hsc1 := face_side_proc_sameConst h1
      have hok2' : ∀ p ∈ me2.peers, PeerOK me2.mpirank p := by
        intro p hp
        rw [hsc1.2.2.1, hcm.1.2.2.1]
        have := hok2 p hp
        rwa [hcm.1.2.2.1] at this
      have hside1 := conf_hside1 me.mpirank me.ghost_rank s0 s1 hlocs
      have hside1' : sideQ me.mpirank me.ghost_rank s1 = me2.mpirank ∨
          sideQ me.mpirank me.ghost_rank s1 < 0 ∨
          (faceCalc me.mpirank me.ghost_rank s0 s1).is_owned = true ∨
          ((faceCalc me.mpirank me.ghost_rank s0 s1).is_owned = false ∧
           sideQ me.mpirank me.ghost_rank s1 =
             (faceCalc me.mpirank me.ghost_rank s0 s1).owner) := by
        rw [hsc1.2.2.1, hcm.1.2.2.1]
        exact hside1
      have hfin := face_side_proc_peerok h2 hok2' hside1'
      intro p hp
      have := hfin p hp
      rwa [hsc1.2.2.1, hcm.1.2.2.1] at this
    · exact hok
    · exact hok
  | corner =>
    have hh : me' = me := by
      simpa [runEvent, iter_corner1] using h.symm
    rw [hh]
    exact hok

theorem runEvents_sameConst {t : List Event} {me me' : Meta}
    (h : runEvents me t = some me') : sameConst me' me := by
  induction t generalizing me with
  | nil =>
    have : me' = me := by simpa [runEvents] using h.symm
    exact this ▸ sameConst_refl me
  | cons e rest ih =>
    unfold runEvents at h
    cases he : runEvent me e with
    | none => rw [he] at h; simp at h
    | some me1 =>
      rw [he] at h
      exact sameConst_trans (ih h) (runEvent_sameConst he)

theorem runEvents_peerok {t : List Event} {me me' : Meta}
    (h : runEvents me t = some me') (hloc : ∀ e ∈ t, has_local_side e)
    (hok : ∀ p ∈ me.peers, PeerOK me.mpirank p) :
    ∀ p ∈ me'.peers, PeerOK me'.mpirank p := by
  induction t generalizing me with
  | nil =>
    have : me' = me := by simpa [runEvents] using h.symm
    subst this
    exact hok
  | cons e rest ih =>
    unfold runEvents at h
    cases he : runEvent me e with
    | none => rw [he] at h; simp at h
    | some me1 =>
      rw [he] at h
      have hok1 : ∀ p ∈ me1.peers, PeerOK me1.mpirank p := by
        intro p hp
        rw [(runEvent_sameConst he).2.2.1]
        exact runEvent_peerok he (hloc e (List.mem_cons_self e rest)) hok p hp
      exact ih h (fun x hx => hloc x (List.mem_cons_of_mem e hx)) hok1

theorem post_all_ok {rank : Int} {ps : List Peer} (hok : ∀ p ∈ ps, PeerOK rank p) :
    (post_all rank ps).isSome = true := by
  induction ps with
  | nil => rfl
  | cons p rest ih =>
    have hp := hok p (List.mem_cons_self p rest)
    have hpost : ∃ out, post_peer rank p = some out := by
      unfold post_peer
      rcases lt_trichotomy rank p.rank with hlt | heqr | hgt
      · rw [if_neg (by omega), if_pos hlt, if_pos ⟨by have := (hp.1 hlt).1; omega,
          (hp.1 hlt).2⟩]
        exact ⟨_, rfl⟩
      · exact absurd heqr.symm hp.2.2
      · rw [if_neg (by omega), if_neg (by omega), if_pos ⟨(hp.2.1 hgt).1, (hp.2.1 hgt).2⟩]
        exact ⟨_, rfl⟩
    obtain ⟨out, hout⟩ := hpost
    have ihr := ih (fun x hx => hok x (List.mem_cons_of_mem p hx))
    obtain ⟨out2, hout2⟩ := Option.isSome_iff_exists.mp ihr
    unfold post_all
    rw [hout]
    obtain ⟨rq, p'⟩ := out
    rw [hout2]
    obtain ⟨rqs, rest'⟩ := out2
    rfl

/-! ## Offset table lemmas -/

theorem goffset_build_length (gc : Int) (counts : List Int) :
    (goffset_build gc counts).length = counts.length := by
  induction counts generalizing gc with
  | nil => rfl
  | cons c rest ih => simp [goffset_build, ih]

theorem goffset_build_getD (counts : List Int) (gc : Int) (r : Nat)
    (h : r < counts.length) :
    (goffset_build gc counts).getD r 0 = gc + (counts.take (r + 1)).sum := by
  induction counts generalizing gc r with
  | nil => simp at h
  | cons c rest ih =>
    cases r with
    | zero => simp [goffset_build, List.getD]
    | succ r' =>
      simp only [List.length_cons, Nat.succ_lt_succ_iff] at h
      have := ih (gc + c) r' h
      simp only [goffset_build, List.getD_cons_succ, this, List.take_succ_cons,
        List.sum_cons]
      ring

theorem take_succ_sum (l : List Int) (r : Nat) (h : r < l.length) :
    (l.take (r + 1)).sum = (l.take r).sum + l.getD r 0 := by
  induction l generalizing r with
  | nil => simp at h
  | cons c rest ih =>
    cases r with
    | zero => simp [List.getD]
    | succ r' =>
      simp only [List.length_cons, Nat.succ_lt_succ_iff] at h
      simp only [List.take_succ_cons, List.sum_cons, ih r' h, List.getD_cons_succ]
      ring

theorem getD_mem_int (l : List Int) (r : Nat) (h : r < l.length) : l.getD r 0 ∈ l := by
  induction l generalizing r with
  | nil => simp at h
  | cons c rest ih =>
    cases r with
    | zero => simp [List.getD]
    | succ r' =>
      simp only [List.length_cons, Nat.succ_lt_succ_iff] at h
      exact List.mem_cons_of_mem c (ih r' h)

theorem goffsets_take_sum (counts : List Int) (r : Nat) (h : r ≤ counts.length) :
    (goffsets counts).getD r 0 = (counts.take r).sum := by
  cases r with
  | zero => simp [goffsets, List.getD]
  | succ r' =>
    have hr : r' < counts.length := by omega
    simp only [goffsets, List.getD_cons_succ]
    rw [goffset_build_getD counts 0 r' hr]
    ring

/-! ## Query resolution lemmas -/

theorem resolve_pos_spec {vn owned : Nat} {nodes : List Int} {gpos o : Int}
    (h : resolve_pos vn owned nodes gpos = some o) :
    0 ≤ gpos ∧ gpos < (vn : Int) * (owned : Int) ∧
    pos_is_boundary (gpos % (vn : Int)).toNat = true ∧
    o = nodes.getD gpos.toNat 0 ∧ 0 ≤ o ∧ o < (owned : Int) := by
  by_cases h1 : 0 ≤ gpos ∧ gpos < (vn : Int) * (owned : Int)
  · by_cases h2 : pos_is_boundary (gpos % (vn : Int)).toNat = true
    · by_cases h3 : 0 ≤ nodes.getD gpos.toNat 0 ∧ nodes.getD gpos.toNat 0 < (owned : Int)
      · simp only [resolve_pos] at h
        rw [if_pos h1, if_pos h2, if_pos h3] at h
        exact ⟨h1.1, h1.2, h2, (Option.some.inj h).symm, (Option.some.inj h) ▸ h3.1,
          (Option.some.inj h) ▸ h3.2⟩
      · simp only [resolve_pos] at h
        rw [if_pos h1, if_pos h2, if_neg h3] at h
        exact absurd h (by simp)
    · simp only [resolve_pos] at h
      rw [if_pos h1, if_neg (by simpa using h2)] at h
      exact absurd h (by simp)
  · simp only [resolve_pos] at h
    rw [if_neg h1] at h
    exact absurd h (by simp)

theorem resolve_queries_spec {vn owned : Nat} {nodes buf out : List Int}
    (h : resolve_queries vn owned nodes buf = some out) :
    out.length = buf.length ∧
    ∀ i, i < buf.length →
      resolve_pos vn owned nodes (buf.getD i 0) = some (out.getD i 0) := by
  induction buf generalizing out with
  | nil =>
    have : out = [] := by simpa [resolve_queries] using h.symm
    subst this
    exact ⟨rfl, fun i hi => absurd hi (by simp)⟩
  | cons g rest ih =>
    unfold resolve_queries at h
    cases hr : resolve_pos vn owned nodes g with
    | none => rw [hr] at h; simp at h
    | some o =>
      rw [hr] at h
      cases hrest : resolve_queries vn owned nodes rest with
      | none => rw [hrest] at h; simp at h
      | some os =>
        rw [hrest] at h
        obtain rfl := (Option.some.inj h).symm
        obtain ⟨hlen, hall⟩ := ih hrest
        refine ⟨by simp [hlen], ?_⟩
        intro i hi
        cases i with
        | zero => simpa [List.getD] using hr
        | succ i' =>
          simp only [List.length_cons, Nat.succ_lt_succ_iff] at hi
          simpa [List.getD_cons_succ] using hall i' hi

theorem resolve_queries_none {vn owned : Nat} {nodes buf : List Int} (i : Nat)
    (hi : i < buf.length)
    (hfail : resolve_pos vn owned nodes (buf.getD i 0) = none) :
    resolve_queries vn owned nodes buf = none := by
  induction buf generalizing i with
  | nil => simp at hi
  | cons g rest ih =>
    cases i with
    | zero =>
      simp only [List.getD] at hfail
      unfold resolve_queries
      rw [show resolve_pos vn owned nodes g = none by simpa using hfail]
    | succ i' =>
      simp only [List.length_cons, Nat.succ_lt_succ_iff] at hi
      simp only [List.getD_cons_succ] at hfail
      unfold resolve_queries
      cases hr : resolve_pos vn owned nodes g with
      | none => rfl
      | some o => rw [ih i' hi hfail]

/-! ## Claim theorems -/

/-- C2: when a posted receive for an incoming query completes, each
received flat position `p` is resolved by reading `element_nodes[p]`,
which must lie in the owned-index range (out of range is fatal), the
buffer entry is overwritten in place preserving order, and the resolved
buffer returned to the peer therefore holds exactly the owned local
indices at the queried positions, in query order. -/
theorem claim2_reply_resolution :
    (∀ (vn owned : Nat) (nodes buf out : List Int),
      resolve_queries vn owned nodes buf = some out →
      out.length = buf.length ∧
      ∀ i, i < buf.length →
        out.getD i 0 = nodes.getD (buf.getD i 0).toNat 0 ∧
        0 ≤ out.getD i 0 ∧ out.getD i 0 < (owned : Int)) ∧
    (∀ (vn owned : Nat) (nodes buf : List Int) (i : Nat), i < buf.length →
      resolve_pos vn owned nodes (buf.getD i 0) = none →
      resolve_queries vn owned nodes buf = none) := by
  constructor
  · intro vn owned nodes buf out h
    obtain ⟨hlen, hall⟩ := resolve_queries_spec h
    refine ⟨hlen, fun i hi => ?_⟩
    obtain ⟨-, -, -, hval, hlo, hhi⟩ := resolve_pos_spec (hall i hi)
    exact ⟨hval, hval ▸ hlo, hval ▸ hhi⟩
  · intro vn owned nodes buf i hi hfail
    exact resolve_queries_none i hi hfail

/-- Witness for C2 at a concrete input: two owned elements in the
corner-only mode, queries for the interior slots of elements 1 and 0. -/
theorem claim2_reply_resolution_witness :
    resolve_queries 9 2 [0, 0, 0, 0, 0, 0, 0, 0, 0, 1, 0, 0, 0, 0, 0, 0, 0, 0]
        [10, 1] = some [0, 0] ∧
    ([0, 0] : List Int).length = ([10, 1] : List Int).length ∧
    resolve_queries 9 2 [0, 0, 0, 0, 0, 0, 0, 0, 0, 1, 0, 0, 0, 0, 0, 0, 0, 0]
        [99] = none := by
  refine ⟨by rfl, ?_, ?_⟩
  · exact (claim2_reply_resolution.1 9 2
      [0, 0, 0, 0, 0, 0, 0, 0, 0, 1, 0, 0, 0, 0, 0, 0, 0, 0] [10, 1] [0, 0] (by rfl)).1
  · exact claim2_reply_resolution.2 9 2
      [0, 0, 0, 0, 0, 0, 0, 0, 0, 1, 0, 0, 0, 0, 0, 0, 0, 0] [99] 0 (by simp) (by rfl)

/-- A concrete peer record that has already recorded the placeholder
index -1 as a query. -/
def c3_peer : Peer :=
  { rank := 0, done := 0, lastadd := -1, bufcount := 0, localind := [-1],
    querypos := [17] }

/-- C3 counterexample: the claim states that for query recording a
strictly smaller local index arriving after a larger one is fatal; the
embedded `peer_add_query` accepts and records the strictly smaller
placeholder -2 after -1 (the code asserts `lastadd >= lni`, the reverse
direction of the claim). -/
theorem claim3_counterexample :
    peer_add_query c3_peer 42 (-2) =
      some { rank := 0, done := 0, lastadd := -2, bufcount := 0,
             localind := [-1, -2], querypos := [17, 42] } := by rfl

/-- C3 amended: consecutive duplicates are dropped by both recorders; for
reply recording the owned indices must arrive in non-decreasing order (a
strictly smaller index after a larger one is fatal), while for query
recording the negative placeholder indices must arrive in non-increasing
order (a strictly larger index after a smaller one is fatal). -/
theorem claim3_order_amended :
    (∀ (p : Peer) (lni : Int),
      peer_add_reply p lni = none ↔ ¬(0 < lni ∧ p.lastadd ≤ lni)) ∧
    (∀ (p : Peer) (lni : Int), 0 < lni → p.lastadd = lni →
      peer_add_reply p lni = some p) ∧
    (∀ (p : Peer) (lni : Int), 0 < lni → p.lastadd < lni →
      peer_add_reply p lni =
        some { p with bufcount := p.bufcount + 1, lastadd := lni }) ∧
    (∀ (p : Peer) (g lni : Int),
      peer_add_query p g lni = none ↔
        ¬(0 ≤ g ∧ lni < 0 ∧ p.localind.length = p.querypos.length ∧
          lni ≤ p.lastadd)) ∧
    (∀ (p : Peer) (g lni : Int), 0 ≤ g → lni < 0 →
      p.localind.length = p.querypos.length → p.lastadd = lni →
      peer_add_query p g lni = some p) ∧
    (∀ (p : Peer) (g lni : Int), 0 ≤ g → lni < 0 →
      p.localind.length = p.querypos.length → lni < p.lastadd →
      peer_add_query p g lni =
        some { p with localind := p.localind ++ [lni],
                      querypos := p.querypos ++ [g], lastadd := lni }) := by
  refine ⟨?_, ?_, ?_, ?_, ?_, ?_⟩
  · intro p lni
    unfold peer_add_reply
    split_ifs with h1 h2 h3 <;> simp_all <;> omega
  · intro p lni h1 h2
    unfold peer_add_reply
    rw [if_pos h1, if_pos (le_of_eq h2), if_neg (by omega)]
  · intro p lni h1 h2
    unfold peer_add_reply
    rw [if_pos h1, if_pos (le_of_lt h2), if_pos (by omega)]
  · intro p g lni
    unfold peer_add_query
    split_ifs with h1 h2 h3 h4 h5 <;> simp_all <;> omega
  · intro p g lni h1 h2 h3 h4
    unfold peer_add_query
    rw [if_pos h1, if_pos h2, if_pos h3, if_pos (le_of_eq h4.symm), if_neg (by omega)]
  · intro p g lni h1 h2 h3 h4
    unfold peer_add_query
    rw [if_pos h1, if_pos h2, if_pos h3, if_pos (le_of_lt h4), if_pos (by omega)]

/-- Witness for C3 amended: reply 5 after 3 is recorded, a duplicate 5 is
dropped, reply 2 after 5 is fatal; query -3 after -1 is recorded and
query -1 after -3 is fatal. -/
def c3_reply_peer : Peer :=
  { rank := 1, done := 0, lastadd := 3, bufcount := 2, localind := [], querypos := [] }

def c3_reply_peer5 : Peer :=
  { rank := 1, done := 0, lastadd := 5, bufcount := 3, localind := [], querypos := [] }

def c3_query_peer : Peer :=
  { rank := 0, done := 0, lastadd := -3, bufcount := 0, localind := [-1, -3],
    querypos := [17, 7] }

theorem claim3_order_amended_witness :
    peer_add_reply c3_reply_peer 5 = some c3_reply_peer5 ∧
    peer_add_reply c3_reply_peer5 5 = some c3_reply_peer5 ∧
    peer_add_reply c3_reply_peer5 2 = none ∧
    peer_add_query c3_peer 7 (-3) = some c3_query_peer ∧
    peer_add_query c3_query_peer 8 (-1) = none := by
  refine ⟨?_, ?_, ?_, ?_, ?_⟩
  · have h := claim3_order_amended.2.2.1 c3_reply_peer 5 (by decide) (by decide)
    rw [h]
    decide
  · have h := claim3_order_amended.2.1 c3_reply_peer5 5 (by decide) (by decide)
    rw [h]
  · exact (claim3_order_amended.1 c3_reply_peer5 2).mpr (by decide)
  · have h := claim3_order_amended.2.2.2.2.2 c3_peer 7 (-3) (by decide) (by decide)
      (by decide) (by decide)
    rw [h]
    decide
  · exact (claim3_order_amended.2.2.2.1 c3_query_peer 8 (-1)).mpr (by decide)

/-- C5: the offset table is the exclusive prefix sum of the gathered
owned counts in rank order: entry 0 is zero, entry r+1 adds count r, the
table is non-decreasing for non-negative counts, the own base offset
`goffset[rank]` is the sum of the counts of the lower ranks, and the last
entry is the total owned count. -/
theorem claim5_offset_table (counts : List Int) (hpos : ∀ c ∈ counts, 0 ≤ c) :
    (goffsets counts).getD 0 0 = 0 ∧
    (∀ r, r < counts.length →
      (goffsets counts).getD (r + 1) 0 =
        (goffsets counts).getD r 0 + counts.getD r 0) ∧
    (∀ r, r < counts.length →
      (goffsets counts).getD r 0 ≤ (goffsets counts).getD (r + 1) 0) ∧
    (∀ p, p ≤ counts.length → global_offset counts p = (counts.take p).sum) ∧
    (goffsets counts).getD counts.length 0 = counts.sum := by
  have hrec : ∀ r, r < counts.length →
      (goffsets counts).getD (r + 1) 0 =
        (goffsets counts).getD r 0 + counts.getD r 0 := by
    intro r hr
    rw [goffsets_take_sum counts r (le_of_lt hr), goffsets_take_sum counts (r + 1) hr,
      take_succ_sum counts r hr]
  refine ⟨by simp [goffsets, List.getD], hrec, ?_, ?_, ?_⟩
  · intro r hr
    rw [hrec r hr]
    have := hpos _ (getD_mem_int counts r hr)
    omega
  · intro p hp
    exact goffsets_take_sum counts p hp
  · rw [goffsets_take_sum counts counts.length (le_refl _)]
    simp

/-- Witness for C5 at the concrete counts [3, 0, 5]. -/
theorem claim5_offset_table_witness :
    goffsets [3, 0, 5] = [0, 3, 3, 8] ∧
    global_offset [3, 0, 5] 2 = 3 ∧
    (goffsets [3, 0, 5]).getD 3 0 = 8 := by
  refine ⟨by rfl, ?_, ?_⟩
  · have := (claim5_offset_table [3, 0, 5] (by decide)).2.2.2.1 2 (by decide)
    simpa using this
  · exact (claim5_offset_table [3, 0, 5] (by decide)).2.2.2.2

/-! ## Ghost-rank table lemmas -/

theorem getD_of_ge_length (l : List Int) (i : Nat) (d : Int) (h : l.length ≤ i) :
    l.getD i d = d := by
  induction l generalizing i with
  | nil => simp [List.getD]
  | cons a t ih =>
    cases i with
    | zero => simp at h
    | succ j =>
      simp only [List.length_cons, Nat.succ_le_succ_iff] at h
      simpa [List.getD] using ih j h

theorem ghost_fill_aux_length (arr : List Int) (lg fuel : Nat) (q : Int) :
    (ghost_fill_aux arr lg fuel q).length = arr.length := by
  induction fuel generalizing arr lg with
  | zero => rfl
  | succ f ih => simp [ghost_fill_aux, ih, List.length_set]

theorem ghost_fill_aux_getD (arr : List Int) (lg fuel : Nat) (q : Int) (i : Nat)
    (d : Int) (h : i < arr.length) :
    (ghost_fill_aux arr lg fuel q).getD i d =
      if lg ≤ i ∧ i < lg + fuel then q else arr.getD i d := by
  induction fuel generalizing arr lg with
  | zero =>
    simp only [ghost_fill_aux]
    rw [if_neg (by omega)]
  | succ f ih =>
    simp only [ghost_fill_aux]
    rw [ih (arr.set lg q) (lg + 1) (by simpa using h)]
    by_cases hi : i = lg
    · subst hi
      rw [if_neg (by omega), if_pos (by omega)]
      exact getD_set_eq arr i q d h
    · by_cases hcond : lg + 1 ≤ i ∧ i < lg + 1 + f
      · rw [if_pos hcond, if_pos (by omega)]
      · rw [if_neg hcond, if_neg (by omega)]
        exact getD_set_ne arr lg i q d (fun hc => hi hc.symm)

theorem ghost_fill_length (arr : List Int) (lg ng : Nat) (q : Int) :
    (ghost_fill arr lg ng q).length = arr.length :=
  ghost_fill_aux_length arr lg (ng - lg) q

theorem ghost_fill_getD (arr : List Int) (lg ng : Nat) (q : Int) (i : Nat) (d : Int)
    (h : i < arr.length) :
    (ghost_fill arr lg ng q).getD i d =
      if lg ≤ i ∧ i < ng then q else arr.getD i d := by
  unfold ghost_fill
  rw [ghost_fill_aux_getD arr lg (ng - lg) q i d h]
  by_cases hc : lg ≤ i ∧ i < ng
  · rw [if_pos (by omega), if_pos hc]
  · rw [if_neg (by omega), if_neg hc]

theorem ghost_walk_length (arr : List Int) (lg : Nat) (q : Int) (offs : List Nat) :
    (ghost_walk arr lg q offs).length = arr.length := by
  induction offs generalizing arr lg q with
  | nil => rfl
  | cons ng rest ih => simp [ghost_walk, ih, ghost_fill_length]

theorem ghost_walk_getD_lt (arr : List Int) (lg : Nat) (q : Int) (offs : List Nat)
    (i : Nat) (d : Int) (h : i < lg) :
    (ghost_walk arr lg q offs).getD i d = arr.getD i d := by
  induction offs generalizing arr lg q with
  | nil => rfl
  | cons ng rest ih =>
    simp only [ghost_walk]
    rw [ih (ghost_fill arr lg ng q) (max lg ng) (q + 1) (by omega)]
    by_cases hlen : i < arr.length
    · rw [ghost_fill_getD arr lg ng q i d hlen, if_neg (by omega)]
    · rw [getD_of_ge_length _ i d (by rw [ghost_fill_length]; omega),
        getD_of_ge_length arr i d (by omega)]

theorem ghost_walk_getD (offs : List Nat) (arr : List Int) (lg : Nat) (q0 : Int)
    (g : Nat) (d : Int) (hg1 : lg ≤ g) (hg2 : g < arr.length)
    (hsort : ∀ k, k + 1 < offs.length → offs.getD k 0 ≤ offs.getD (k + 1) 0)
    (hhead : lg ≤ offs.headD g)
    (j : Nat) (hj : j < offs.length) (hgj : g < offs.getD j 0)
    (hmin : ∀ k, k < j → offs.getD k 0 ≤ g) :
    (ghost_walk arr lg q0 offs).getD g d = q0 + j := by
  induction offs generalizing arr lg q0 j with
  | nil => simp at hj
  | cons ng rest ih =>
    simp only [ghost_walk]
    cases j with
    | zero =>
      simp only [List.getD_cons_zero] at hgj
      rw [ghost_walk_getD_lt _ _ _ _ g d (by omega)]
      rw [ghost_fill_getD arr lg ng q0 g d hg2, if_pos ⟨hg1, hgj⟩]
      simp
    | succ j' =>
      have hng : ng ≤ g := by
        have := hmin 0 (Nat.succ_pos j')
        simpa using this
      have hlg : lg ≤ ng := by simpa using hhead
      have hmax : max lg ng = ng := by omega
      rw [hmax]
      have hrest_ne : rest ≠ [] := by
        intro hempty
        rw [hempty] at hj
        simp at hj
      have hng_head : ng ≤ rest.headD g := by
        cases rest with
        | nil => exact absurd rfl hrest_ne
        | cons r2 rr =>
          have := hsort 0 (by simpa using Nat.lt_of_lt_of_le (by omega) (le_refl _))
          simpa using this
      have hres := ih (ghost_fill arr lg ng q0) ng (q0 + 1) (by omega)
        (by rw [ghost_fill_length]; exact hg2)
        (fun k hk => by
          have := hsort (k + 1) (by simpa using Nat.succ_lt_succ hk)
          simpa using this)
        hng_head j' (by simpa using Nat.lt_of_succ_lt_succ (by simpa using hj))
        (by simpa using hgj)
        (fun k hk => by
          have := hmin (k + 1) (Nat.succ_lt_succ hk)
          simpa using this)
      rw [hres]
      push_cast
      ring

theorem offs_mono_le (offs : List Nat)
    (hmono : ∀ k, k + 1 < offs.length → offs.getD k 0 ≤ offs.getD (k + 1) 0)
    (i j : Nat) (hij : i ≤ j) (hj : j < offs.length) :
    offs.getD i 0 ≤ offs.getD j 0 := by
  induction j with
  | zero =>
    have : i = 0 := by omega
    subst this
    exact le_refl _
  | succ j' ih =>
    by_cases hij' : i ≤ j'
    · exact le_trans (ih hij' (by omega)) (hmono j' hj)
    · have : i = j' + 1 := by omega
      subst this
      exact le_refl _

/-- C6: given per-rank ghost offsets with `offsets[0] = 0`,
`offsets[size] = nghosts` and non-decreasing entries, the single walk of
`p4est_trimesh_new` produces `ghost_rank[g] = q` exactly when
`offsets[q] <= g < offsets[q+1]`. -/
theorem claim6_ghost_rank (offsets : List Nat) (nghosts s : Nat)
    (hlen : offsets.length = s + 1)
    (h0 : offsets.getD 0 0 = 0)
    (hlast : offsets.getD s 0 = nghosts)
    (hmono : ∀ k, k + 1 < offsets.length → offsets.getD k 0 ≤ offsets.getD (k + 1) 0)
    (g q : Nat) (hg : g < nghosts) (hq : q < s) :
    (build_ghost_rank nghosts offsets).getD g (-1) = (q : Int) ↔
      (offsets.getD q 0 ≤ g ∧ g < offsets.getD (q + 1) 0) := by
  obtain ⟨o0, tl, rfl⟩ : ∃ o0 tl, offsets = o0 :: tl := by
    cases offsets with
    | nil => simp at hlen
    | cons a t => exact ⟨a, t, rfl⟩
  have htl_len : tl.length = s := by simpa using hlen
  have hbuild : build_ghost_rank nghosts (o0 :: tl) =
      ghost_walk (List.replicate nghosts (-1)) 0 0 tl := rfl
  have hsort_tl : ∀ k, k + 1 < tl.length → tl.getD k 0 ≤ tl.getD (k + 1) 0 := by
    intro k hk
    have := hmono (k + 1) (by simpa using Nat.succ_lt_succ hk)
    simpa using this
  have hex : ∃ j, g < tl.getD j 0 := by
    refine ⟨s - 1, ?_⟩
    have hs1 : s - 1 + 1 = s := by omega
    have : tl.getD (s - 1) 0 = (o0 :: tl).getD s 0 := by
      rw [← hs1]
      simp
    rw [this, hlast]
    exact hg
  have hjm := Nat.find_spec hex
  set jm := Nat.find hex with hjm_def
  have hjm_lt : jm < tl.length := by
    have hle : jm ≤ s - 1 := Nat.find_min' hex (by
      have hs1 : s - 1 + 1 = s := by omega
      have : tl.getD (s - 1) 0 = (o0 :: tl).getD s 0 := by
        rw [← hs1]
        simp
      rw [this, hlast]
      exact hg)
    omega
  have hmin : ∀ k, k < jm → tl.getD k 0 ≤ g := by
    intro k hk
    have := Nat.find_min hex hk
    omega
  have hwalk : (ghost_walk (List.replicate nghosts (-1)) 0 0 tl).getD g (-1) =
      (jm : Int) := by
    have := ghost_walk_getD tl (List.replicate nghosts (-1)) 0 0 g (-1)
      (Nat.zero_le g) (by simpa using hg) hsort_tl (Nat.zero_le _) jm hjm_lt hjm hmin
    simpa using this
  rw [hbuild, hwalk]
  constructor
  · intro htab
    have hqjm : q = jm := by exact_mod_cast htab.symm
    constructor
    · cases hq0 : q with
      | zero =>
        simp only [List.getD_cons_zero] at h0 ⊢
        omega
      | succ k =>
        have hk : k < jm := by omega
        have hkg := hmin k hk
        have hshift : tl.getD k 0 = (o0 :: tl).getD (k + 1) 0 := by simp
        rw [hshift] at hkg
        exact hkg
    · have hshift : tl.getD q 0 = (o0 :: tl).getD (q + 1) 0 := by simp
      rw [← hshift, hqjm]
      exact hjm
  · intro ⟨hlo, hhi⟩
    have hup : jm ≤ q := Nat.find_min' hex (by
      have hshift : tl.getD q 0 = (o0 :: tl).getD (q + 1) 0 := by simp
      rw [hshift]
      exact hhi)
    have hdown : q ≤ jm := by
      by_contra hcon
      push_neg at hcon
      have hchain : (o0 :: tl).getD (jm + 1) 0 ≤ (o0 :: tl).getD q 0 :=
        offs_mono_le (o0 :: tl) hmono (jm + 1) q (by omega) (by omega)
      have hshift : tl.getD jm 0 = (o0 :: tl).getD (jm + 1) 0 := by simp
      rw [hshift] at hjm
      omega
    have : q = jm := by omega
    subst this
    rfl

/-- Witness for C6 at the concrete offsets [0, 2, 2, 4] for 3 ranks and
4 ghosts: ghost 2 belongs to rank 2. -/
theorem claim6_ghost_rank_witness :
    (build_ghost_rank 4 [0, 2, 2, 4]).getD 2 (-1) = (2 : Int) ∧
    build_ghost_rank 4 [0, 2, 2, 4] = [0, 0, 2, 2] := by
  constructor
  · exact (claim6_ghost_rank [0, 2, 2, 4] 4 3 (by decide) (by decide) (by decide)
      (by
        intro k hk
        have hk4 : k + 1 < 4 := by simpa using hk
        have hk3 : k < 3 := by omega
        interval_cases k <;> decide) 2 2 (by decide) (by decide)).mpr (by decide)
  · rfl

/-- C8: a face visit whose connection has a hanging side, and every
corner visit, leave the pass state unchanged: no element-node slot is
written, neither counter is incremented, and no peer record, reply
obligation, query or message is created. -/
theorem claim8_hanging_and_corner_no_effect (me : Meta) (s0 s1 : FaceSide)
    (hh : s0.is_hanging = true ∨ s1.is_hanging = true)
    (hnb : ¬(s0.is_hanging = true ∧ s1.is_hanging = true)) :
    runEvent me (Event.face2 s0 s1) = some me ∧
    runEvent me Event.corner = some me := by
  constructor
  · simp only [runEvent, iter_face_two]
    rw [if_neg hnb]
    have hcond : ¬(s0.is_hanging = false ∧ s1.is_hanging = false) := by
      rcases hh with h | h <;> simp [h]
    rw [if_neg hcond]
    rfl
  · rfl

/-- Concrete pass state for the C8 witness. -/
def w8_me : Meta := trimesh_init false 1 0 1 none

/-- Hanging side for the C8 witness. -/
def w8_s0 : FaceSide :=
  { is_hanging := true, is_ghost := false, quadid := 0, le := 0, face := 0, gplocal := 0 }

/-- Full side for the C8 witness. -/
def w8_s1 : FaceSide :=
  { is_hanging := false, is_ghost := false, quadid := 1, le := 1, face := 2, gplocal := 0 }

/-- Witness for C8 at a concrete hanging connection. -/
theorem claim8_hanging_and_corner_no_effect_witness :
    runEvent w8_me (Event.face2 w8_s0 w8_s1) = some w8_me ∧
    runEvent w8_me Event.corner = some w8_me :=
  claim8_hanging_and_corner_no_effect w8_me w8_s0 w8_s1 (Or.inl rfl) (by simp [w8_s1])

/-- C4: for every peer record existing at the start of the posting phase,
exactly one of the two shapes holds: higher rank with at least one
accumulated reply obligation and no query positions, or lower rank with
at least one query position and no reply obligations; consequently the
posting-phase assertions are never violated. -/
theorem claim4_posting_dichotomy (t : List Event) (me0 me1 : Meta)
    (hpeers : me0.peers = [])
    (hloc : ∀ e ∈ t, has_local_side e)
    (hrun : runEvents me0 t = some me1) :
    (∀ p ∈ me1.peers,
      (me1.mpirank < p.rank ∧ 1 ≤ p.bufcount ∧ p.querypos = []) ∨
      (p.rank < me1.mpirank ∧ p.bufcount = 0 ∧ p.querypos ≠ [])) ∧
    (post_query_reply me1).isSome = true := by
  have hok0 : ∀ p ∈ me0.peers, PeerOK me0.mpirank p := by
    rw [hpeers]
    simp
  have hok1 := runEvents_peerok hrun hloc hok0
  constructor
  · intro p hp
    have h := hok1 p hp
    rcases lt_trichotomy me1.mpirank p.rank with hlt | heq | hgt
    · exact Or.inl ⟨hlt, (h.1 hlt).1, (h.1 hlt).2⟩
    · exact absurd heq.symm h.2.2
    · exact Or.inr ⟨hgt, (h.2.1 hgt).1, (h.2.1 hgt).2⟩
  · unfold post_query_reply
    obtain ⟨out, hout⟩ := Option.isSome_iff_exists.mp (post_all_ok hok1)
    rw [hout]
    obtain ⟨rqs, ps⟩ := out
    rfl

/-- Local side of the C4 witness connection. -/
def w4_s0 : FaceSide :=
  { is_hanging := false, is_ghost := false, quadid := 0, le := 0, face := 0, gplocal := 0 }

/-- Ghost side of the C4 witness connection, owned by rank 1. -/
def w4_s1 : FaceSide :=
  { is_hanging := false, is_ghost := true, quadid := 0, le := 0, face := 1, gplocal := 4 }

/-- Trace of the C4 witness: one element visit and one contested face. -/
def w4_trace : List Event := [Event.volume, Event.face2 w4_s0 w4_s1]

/-- Initial state of the C4 witness: rank 0 of 2, one local element, one
ghost owned by rank 1, face nodes enabled. -/
def w4_me0 : Meta := trimesh_init true 2 0 1 (some [0, 0, 1])

/-- Final state of the C4 witness run. -/
def w4_me1 : Meta :=
  { with_faces := true, mpisize := 2, mpirank := 0, has_ghost := true,
    ghost_rank := [1],
    peers := [{ rank := 1, done := 0, lastadd := 1, bufcount := 1, localind := [],
                querypos := [] }],
    remotepos := [], lenum := 1, num_owned := 2, num_shared := 0,
    num_local_elements := 1,
    element_nodes := [0, 0, 0, 0, 0, 0, 0, 0, 0, 0, 0, 0, 0, 0, 0, 0, 0, 1, 0, 0, 0,
                      0, 0, 0, 0],
    writelog := [0, 17], replylog := [1], facelog := [1] }

/-- Witness for C4: the concrete two-rank run ends with one peer record
satisfying the dichotomy and a successful posting phase. -/
theorem claim4_posting_dichotomy_witness :
    runEvents w4_me0 w4_trace = some w4_me1 ∧
    (post_query_reply w4_me1).isSome = true := by
  refine ⟨by rfl, ?_⟩
  refine (claim4_posting_dichotomy w4_trace w4_me0 w4_me1 rfl ?_ (by rfl)).2
  intro e he
  rcases List.mem_cons.mp he with rfl | he2
  · exact trivial
  · rcases List.mem_cons.mp he2 with rfl | he3
    · exact fun _ _ => Or.inl rfl
    · simp at he3

/-! ## Conforming-face ownership lemmas -/

theorem getD_mem_any (l : List Int) (r : Nat) (d : Int) (h : r < l.length) :
    l.getD r d ∈ l := by
  induction l generalizing r with
  | nil => simp at h
  | cons c rest ih =>
    cases r with
    | zero => simp [List.getD]
    | succ r' =>
      simp only [List.length_cons, Nat.succ_lt_succ_iff] at h
      exact List.mem_cons_of_mem c (ih r' h)

theorem faceStep2_owner_rr (r : Int) :
    (faceStep (faceStep ⟨r, true⟩ r) r).owner = min r r := by
  unfold faceStep
  split_ifs <;> simp_all <;> omega

theorem faceStep2_owner_rq (r q : Int) (hq : 0 ≤ q) :
    (faceStep (faceStep ⟨r, true⟩ r) q).owner = min r q := by
  unfold faceStep
  split_ifs <;> simp_all <;> omega

theorem faceStep2_owner_qr (r q : Int) (hq : 0 ≤ q) :
    (faceStep (faceStep ⟨r, true⟩ q) r).owner = min q r := by
  unfold faceStep
  split_ifs <;> simp_all <;> omega

theorem faceCalc_owner_min (r : Int) (gr : List Int) (s0 s1 : FaceSide)
    (hloc : s0.is_ghost = false ∨ s1.is_ghost = false)
    (hg0 : s0.is_ghost = true → 0 ≤ s0.quadid ∧ s0.quadid.toNat < gr.length)
    (hg1 : s1.is_ghost = true → 0 ≤ s1.quadid ∧ s1.quadid.toNat < gr.length)
    (hgr : ∀ x ∈ gr, 0 ≤ x) :
    (faceCalc r gr s0 s1).owner = ranks_min (part_ranks r gr s0 s1) := by
  rw [faceCalc_eq]
  cases hb0 : s0.is_ghost with
  | false =>
    cases hb1 : s1.is_ghost with
    | false =>
      rw [sideQ_local hb0, sideQ_local hb1]
      simp only [part_ranks, side_part, hb0, hb1, if_pos rfl]
      rw [faceStep2_owner_rr]
      simp [ranks_min]
    | true =>
      obtain ⟨hq1, hq1len⟩ := hg1 hb1
      have hq1v : sideQ r gr s1 = gr.getD s1.quadid.toNat (-1) := by
        simp [sideQ, hb1, hq1]
      have hq1pos : 0 ≤ gr.getD s1.quadid.toNat (-1) :=
        hgr _ (getD_mem_any gr s1.quadid.toNat (-1) hq1len)
      rw [sideQ_local hb0, hq1v, faceStep2_owner_rq r _ hq1pos]
      simp [part_ranks, side_part, hb0, hb1, hq1, ranks_min, List.foldl]
  | true =>
    have hb1 : s1.is_ghost = false := by
      rcases hloc with h | h
      · rw [h] at hb0
        exact absurd hb0 (by simp)
      · exact h
    obtain ⟨hq0, hq0len⟩ := hg0 hb0
    have hq0v : sideQ r gr s0 = gr.getD s0.quadid.toNat (-1) := by
      simp [sideQ, hb0, hq0]
    have hq0pos : 0 ≤ gr.getD s0.quadid.toNat (-1) :=
      hgr _ (getD_mem_any gr s0.quadid.toNat (-1) hq0len)
    rw [sideQ_local hb1, hq0v, faceStep2_owner_qr r _ hq0pos]
    simp [part_ranks, side_part, hb0, hb1, hq0, ranks_min, List.foldl]

theorem faceCalc_owned_iff (r : Int) (gr : List Int) (s0 s1 : FaceSide) :
    (faceCalc r gr s0 s1).is_owned = true ↔ (faceCalc r gr s0 s1).owner = r := by
  have hf := faceStep2_facts r (sideQ r gr s0) (sideQ r gr s1)
  rw [← faceCalc_eq] at hf
  constructor
  · exact hf.1
  · intro ho
    by_cases hb : (faceCalc r gr s0 s1).is_owned = true
    · exact hb
    · have hno : (faceCalc r gr s0 s1).is_owned = false := by simpa using hb
      have := (hf.2.1 hno).1
      omega

theorem slot_lt (le face n : Nat) (hle : le < n) (hf : face < 4) :
    le * 25 + pos_lnodes_face_full face < 25 * n := by
  have h : pos_lnodes_face_full face = 17 + 2 * face := rfl
  omega


/-- C1: on a conforming two-sided face connection with face nodes
enabled, the owner of the face node is the minimum rank among the
participating ranks (self for a local side, the ghost-rank lookup for a
ghost side); when that minimum is the own rank the local slots receive
the next owned index and `num_owned` is incremented, otherwise they
receive the placeholder `-1 - num_shared` and `num_shared` is
incremented. -/
theorem claim1_conforming_face (me me1 : Meta) (s0 s1 : FaceSide)
    (hwf : me.with_faces = true)
    (hh0 : s0.is_hanging = false) (hh1 : s1.is_hanging = false)
    (hloc : s0.is_ghost = false ∨ s1.is_ghost = false)
    (hg0 : s0.is_ghost = true → 0 ≤ s0.quadid ∧ s0.quadid.toNat < me.ghost_rank.length)
    (hg1 : s1.is_ghost = true → 0 ≤ s1.quadid ∧ s1.quadid.toNat < me.ghost_rank.length)
    (hgr : ∀ x ∈ me.ghost_rank, 0 ≤ x)
    (hlen : me.element_nodes.length = 25 * me.num_local_elements)
    (hrun : runEvent me (Event.face2 s0 s1) = some me1) :
    (faceCalc me.mpirank me.ghost_rank s0 s1).owner =
      ranks_min (part_ranks me.mpirank me.ghost_rank s0 s1) ∧
    (ranks_min (part_ranks me.mpirank me.ghost_rank s0 s1) = me.mpirank →
      me1.num_owned = me.num_owned + 1 ∧ me1.num_shared = me.num_shared ∧
      (s0.is_ghost = false →
        me1.element_nodes.getD (s0.le * 25 + pos_lnodes_face_full s0.face) 0 =
          (me.num_owned : Int)) ∧
      (s1.is_ghost = false →
        me1.element_nodes.getD (s1.le * 25 + pos_lnodes_face_full s1.face) 0 =
          (me.num_owned : Int))) ∧
    (ranks_min (part_ranks me.mpirank me.ghost_rank s0 s1) ≠ me.mpirank →
      me1.num_shared = me.num_shared + 1 ∧ me1.num_owned = me.num_owned ∧
      (s0.is_ghost = false →
        me1.element_nodes.getD (s0.le * 25 + pos_lnodes_face_full s0.face) 0 =
          -1 - (me.num_shared : Int)) ∧
      (s1.is_ghost = false →
        me1.element_nodes.getD (s1.le * 25 + pos_lnodes_face_full s1.face) 0 =
          -1 - (me.num_shared : Int))) := by
  have hrun2 : iter_face_two me s0 s1 = some me1 := hrun
  rcases iter_face_two_cases hrun2 with ⟨-, -, -, hconf⟩ | ⟨-, -, hwff, -⟩ | ⟨hhang, -, -⟩
  case inr.inl =>
    rw [hwf] at hwff
    exact absurd hwff (by simp)
  case inr.inr =>
    rcases hhang with hx | hx
    · rw [hh0] at hx
      exact absurd hx (by simp)
    · rw [hh1] at hx
      exact absurd hx (by simp)
  obtain ⟨me2, hp0, hp1⟩ := iter_face_conf_split hconf
  have howner := faceCalc_owner_min me.mpirank me.ghost_rank s0 s1 hloc hg0 hg1 hgr
  have howniff := faceCalc_owned_iff me.mpirank me.ghost_rank s0 s1
  have hcm := confMid_proj me s0 s1
  have hctr := confMid_counters me s0 s1
  have hmidrank : (confMid me s0 s1).mpirank = me.mpirank := hcm.1.2.2.1
  have hmidN : (confMid me s0 s1).num_local_elements = me.num_local_elements :=
    hcm.1.2.2.2.2.2
  have hmidnodes : (confMid me s0 s1).element_nodes = me.element_nodes := hcm.2.2.1
  obtain ⟨-, -, -, -, -, -, -, ho1, hs1n, -⟩ := face_side_proc_const hp0
  obtain ⟨-, -, -, -, -, -, -, ho2, hs2n, -⟩ := face_side_proc_const hp1
  have hlen2 : me2.element_nodes.length = 25 * me.num_local_elements := by
    rcases face_side_proc_cases hp0 with ⟨-, hset0⟩ | ⟨hq0ne, -, -⟩ | ⟨-, -, rfl⟩
    · obtain ⟨-, -, -, -, -, rfl⟩ := set_face_spec hset0
      simp only [List.length_set]
      rw [hmidnodes]
      exact hlen
    · rw [(face_side_proc_remote_frame hp0 hq0ne).1, hmidnodes]
      exact hlen
    · rw [hmidnodes]
      exact hlen
  have hside0 : s0.is_ghost = false →
      me2.element_nodes =
        me.element_nodes.set (s0.le * 25 + pos_lnodes_face_full s0.face)
          (confLni me s0 s1) ∧
      s0.le < me.num_local_elements ∧ s0.face < 4 := by
    intro hb0
    have hq0 : sideQ me.mpirank me.ghost_rank s0 = me.mpirank := sideQ_local hb0
    rcases face_side_proc_cases hp0 with ⟨-, hset0⟩ | ⟨hq0ne, -, -⟩ | ⟨-, hq0ne, -⟩
    · obtain ⟨-, hle0, hf0, -, -, rfl⟩ := set_face_spec hset0
      rw [hmidN] at hle0
      refine ⟨?_, hle0, hf0⟩
      simp only
      rw [hmidnodes]
    · rw [hq0, hmidrank] at hq0ne
      exact absurd rfl hq0ne
    · rw [hq0, hmidrank] at hq0ne
      exact absurd rfl hq0ne
  have hside1 : s1.is_ghost = false →
      me1.element_nodes =
        me2.element_nodes.set (s1.le * 25 + pos_lnodes_face_full s1.face)
          (confLni me s0 s1) ∧
      s1.le < me.num_local_elements ∧ s1.face < 4 := by
    intro hb1
    have hq1 : sideQ me.mpirank me.ghost_rank s1 = me.mpirank := sideQ_local hb1
    have hrank2 : me2.mpirank = me.mpirank := by
      rw [(face_side_proc_sameConst hp0).2.2.1, hmidrank]
    rcases face_side_proc_cases hp1 with ⟨-, hset1⟩ | ⟨hq1ne, -, -⟩ | ⟨-, hq1ne, -⟩
    · obtain ⟨-, hle1, hf1, -, -, rfl⟩ := set_face_spec hset1
      have hN2 : me2.num_local_elements = me.num_local_elements := by
        rw [(face_side_proc_sameConst hp0).2.2.2.2.2, hmidN]
      rw [hN2] at hle1
      exact ⟨by simp only, hle1, hf1⟩
    · rw [hq1, hrank2] at hq1ne
      exact absurd rfl hq1ne
    · rw [hq1, hrank2] at hq1ne
      exact absurd rfl hq1ne
  have hnodes1_cases : me1.element_nodes = me2.element_nodes ∨
      ∃ lp, lp < me2.element_nodes.length ∧
        me1.element_nodes = me2.element_nodes.set lp (confLni me s0 s1) := by
    rcases face_side_proc_cases hp1 with ⟨-, hset1⟩ | ⟨hq1ne, -, -⟩ | ⟨-, -, rfl⟩
    · obtain ⟨-, hle1, hf1, -, -, rfl⟩ := set_face_spec hset1
      right
      refine ⟨s1.le * 25 + pos_lnodes_face_full s1.face, ?_, by simp only⟩
      have hN2 : me2.num_local_elements = me.num_local_elements := by
        rw [(face_side_proc_sameConst hp0).2.2.2.2.2, hmidN]
      rw [hlen2]
      exact slot_lt s1.le s1.face me.num_local_elements (hN2 ▸ hle1) hf1
    · exact Or.inl (face_side_proc_remote_frame hp1 hq1ne).1
    · exact Or.inl rfl
  have hslot0 : s0.is_ghost = false →
      me1.element_nodes.getD (s0.le * 25 + pos_lnodes_face_full s0.face) 0 =
        confLni me s0 s1 := by
    intro hb0
    obtain ⟨hn2, hle0, hf0⟩ := hside0 hb0
    have hb : s0.le * 25 + pos_lnodes_face_full s0.face < me.element_nodes.length := by
      rw [hlen]
      exact slot_lt s0.le s0.face me.num_local_elements hle0 hf0
    have hv2 : me2.element_nodes.getD (s0.le * 25 + pos_lnodes_face_full s0.face) 0 =
        confLni me s0 s1 := by
      rw [hn2]
      exact getD_set_eq me.element_nodes _ _ 0 hb
    rcases hnodes1_cases with heq | ⟨lp, hlp, hset⟩
    · rw [heq]
      exact hv2
    · rw [hset]
      by_cases hpp : lp = s0.le * 25 + pos_lnodes_face_full s0.face
      · subst hpp
        exact getD_set_eq me2.element_nodes _ _ 0 hlp
      · rw [getD_set_ne me2.element_nodes lp _ _ 0 hpp]
        exact hv2
  have hslot1 : s1.is_ghost = false →
      me1.element_nodes.getD (s1.le * 25 + pos_lnodes_face_full s1.face) 0 =
        confLni me s0 s1 := by
    intro hb1
    obtain ⟨hn1, hle1, hf1⟩ := hside1 hb1
    have hb : s1.le * 25 + pos_lnodes_face_full s1.face < me2.element_nodes.length := by
      rw [hlen2]
      exact slot_lt s1.le s1.face me.num_local_elements hle1 hf1
    rw [hn1]
    exact getD_set_eq me2.element_nodes _ _ 0 hb
  refine ⟨howner, ?_, ?_⟩
  · intro hmin
    have howned : (faceCalc me.mpirank me.ghost_rank s0 s1).is_owned = true :=
      howniff.mpr (howner.trans hmin)
    have hlni : confLni me s0 s1 = (me.num_owned : Int) := by
      simp [confLni, howned]
    refine ⟨?_, ?_, fun hb0 => by rw [hslot0 hb0, hlni],
      fun hb1 => by rw [hslot1 hb1, hlni]⟩
    · rw [ho2, ho1, (hctr.1 howned).1]
    · rw [hs2n, hs1n, (hctr.1 howned).2]
  · intro hmin
    have hnotowned : (faceCalc me.mpirank me.ghost_rank s0 s1).is_owned = false := by
      by_cases hb : (faceCalc me.mpirank me.ghost_rank s0 s1).is_owned = true
      · exact absurd (howniff.mp hb) (fun hc => hmin (howner.symm.trans hc))
      · simpa using hb
    have hlni : confLni me s0 s1 = -1 - (me.num_shared : Int) := by
      simp [confLni, hnotowned]
    refine ⟨?_, ?_, fun hb0 => by rw [hslot0 hb0, hlni],
      fun hb1 => by rw [hslot1 hb1, hlni]⟩
    · rw [hs2n, hs1n, (hctr.2 hnotowned).2]
    · rw [ho2, ho1, (hctr.2 hnotowned).1]


/-- Initial state of the C1 witness: rank 0 of 2, face nodes on, one
local element whose interior node already consumed owned index 0, one
ghost owned by rank 1. -/
def w1_me : Meta :=
  { with_faces := true, mpisize := 2, mpirank := 0, has_ghost := true,
    ghost_rank := [1], peers := [], remotepos := [], lenum := 1, num_owned := 1,
    num_shared := 0, num_local_elements := 1,
    element_nodes := List.replicate 25 0, writelog := [], replylog := [],
    facelog := [] }

/-- Final state of the C1 witness visit. -/
def w1_me1 : Meta :=
  { with_faces := true, mpisize := 2, mpirank := 0, has_ghost := true,
    ghost_rank := [1],
    peers := [{ rank := 1, done := 0, lastadd := 1, bufcount := 1, localind := [],
                querypos := [] }],
    remotepos := [], lenum := 1, num_owned := 2, num_shared := 0,
    num_local_elements := 1,
    element_nodes := [0, 0, 0, 0, 0, 0, 0, 0, 0, 0, 0, 0, 0, 0, 0, 0, 0, 1, 0, 0, 0,
                      0, 0, 0, 0],
    writelog := [17], replylog := [1], facelog := [1] }

/-- Witness for C1: on the concrete contested face the minimum
participating rank is 0 (self), the slot of the local side receives owned
index 1 and `num_owned` advances from 1 to 2. -/
theorem claim1_conforming_face_witness :
    runEvent w1_me (Event.face2 w4_s0 w4_s1) = some w1_me1 ∧
    ranks_min (part_ranks w1_me.mpirank w1_me.ghost_rank w4_s0 w4_s1) = 0 ∧
    w1_me1.num_owned = 2 ∧ w1_me1.num_shared = 0 ∧
    w1_me1.element_nodes.getD (w4_s0.le * 25 + pos_lnodes_face_full w4_s0.face) 0 =
      (w1_me.num_owned : Int) := by
  have h := claim1_conforming_face w1_me w1_me1 w4_s0 w4_s1 rfl rfl rfl
    (Or.inl rfl) (fun hcon => absurd hcon (by decide)) (fun _ => by decide)
    (by decide) (by decide) (by rfl)
  have hmin : ranks_min (part_ranks w1_me.mpirank w1_me.ghost_rank w4_s0 w4_s1) =
      w1_me.mpirank := by decide
  obtain ⟨-, h2, -⟩ := h
  refine ⟨by rfl, by decide, ?_, (h2 hmin).2.1, (h2 hmin).2.2.1 rfl⟩
  have := (h2 hmin).1
  simpa [w1_me] using this

/-! ## Reply positivity lemmas -/

theorem runEvent_logs {me me' : Meta} {e : Event} (h : runEvent me e = some me')
    (how : 1 ≤ me.num_owned) :
    1 ≤ me'.num_owned ∧
    (∀ n ∈ me'.facelog, n ∈ me.facelog ∨ 1 ≤ n) ∧
    (∀ l ∈ me'.replylog, l ∈ me.replylog ∨ 1 ≤ l) := by
  cases e with
  | volume =>
    obtain ⟨-, -, -, rfl⟩ := iter_volume1_spec h
    exact ⟨by simp, fun n hn => Or.inl hn, fun l hl => Or.inl hl⟩
  | bface s =>
    obtain ⟨-, -, hcase⟩ := iter_face_boundary_spec h
    rcases hcase with ⟨-, me1, hset, rfl⟩ | ⟨-, rfl⟩
    · obtain ⟨-, -, -, -, -, rfl⟩ := set_face_spec hset
      exact ⟨by simp, fun n hn => Or.inl hn, fun l hl => Or.inl hl⟩
    · exact ⟨how, fun n hn => Or.inl hn, fun l hl => Or.inl hl⟩
  | face2 s0 s1 =>
    rcases iter_face_two_cases h with ⟨-, -, -, hconf⟩ | ⟨-, -, -, rfl⟩ | ⟨-, -, rfl⟩
    · obtain ⟨me2, hp0, hp1⟩ := iter_face_conf_split hconf
      have hcm := confMid_proj me s0 s1
      have hctr := confMid_counters me s0 s1
      obtain ⟨-, -, -, -, -, -, -, ho1, -, hf1⟩ := face_side_proc_const hp0
      obtain ⟨-, -, -, -, -, -, -, ho2, -, hf2⟩ := face_side_proc_const hp1
      have hmid_owned : 1 ≤ (confMid me s0 s1).num_owned := by
        by_cases hb : (faceCalc me.mpirank me.ghost_rank s0 s1).is_owned = true
        · have := (hctr.1 hb).1
          omega
        · have := (hctr.2 (by simpa using hb)).1
          omega
      have howned1 : 1 ≤ me'.num_owned := by
        rw [ho2, ho1]
        exact hmid_owned
      have hlni : (faceCalc me.mpirank me.ghost_rank s0 s1).is_owned = true →
          1 ≤ confLni me s0 s1 := by
        intro hb
        simp only [confLni, hb, if_pos]
        omega
      refine ⟨howned1, ?_, ?_⟩
      · intro n hn
        rw [hf2, hf1, hcm.2.2.2.2.2.2.1] at hn
        rcases List.mem_append.mp hn with hn | hn
        · exact Or.inl hn
        · right
          have : n = me.num_owned := by simpa using hn
          omega
      · intro l hl
        have hr1 := face_side_proc_replylog hp0
        have hr2 := face_side_proc_replylog hp1
        have hmidr : (confMid me s0 s1).replylog = me.replylog := hcm.2.2.2.2.2.1
        rcases hr2 with h2e | ⟨h2a, h2o⟩
        · rw [h2e] at hl
          rcases hr1 with h1e | ⟨h1a, h1o⟩
          · rw [h1e, hmidr] at hl
            exact Or.inl hl
          · rw [h1a, hmidr] at hl
            rcases List.mem_append.mp hl with hl | hl
            · exact Or.inl hl
            · right
              have : l = confLni me s0 s1 := by simpa using hl
              rw [this]
              exact hlni h1o
        · rw [h2a] at hl
          rcases List.mem_append.mp hl with hl | hl
          · rcases hr1 with h1e | ⟨h1a, h1o⟩
            · rw [h1e, hmidr] at hl
              exact Or.inl hl
            · rw [h1a, hmidr] at hl
              rcases List.mem_append.mp hl with hl | hl
              · exact Or.inl hl
              · right
                have : l = confLni me s0 s1 := by simpa using hl
                rw [this]
                exact hlni h1o
          · right
            have : l = confLni me s0 s1 := by simpa using hl
            rw [this]
            exact hlni h2o
    · exact ⟨how, fun n hn => Or.inl hn, fun l hl => Or.inl hl⟩
    · exact ⟨how, fun n hn => Or.inl hn, fun l hl => Or.inl hl⟩
  | corner =>
    have hid : me' = me := by simpa [runEvent, iter_corner1] using h.symm
    subst hid
    exact ⟨how, fun n hn => Or.inl hn, fun l hl => Or.inl hl⟩

theorem runEvents_logs {t : List Event} {me me' : Meta}
    (h : runEvents me t = some me') (how : 1 ≤ me.num_owned) :
    (∀ n ∈ me'.facelog, n ∈ me.facelog ∨ 1 ≤ n) ∧
    (∀ l ∈ me'.replylog, l ∈ me.replylog ∨ 1 ≤ l) := by
  induction t generalizing me with
  | nil =>
    have hid : me' = me := by simpa [runEvents] using h.symm
    subst hid
    exact ⟨fun n hn => Or.inl hn, fun l hl => Or.inl hl⟩
  | cons e rest ih =>
    unfold runEvents at h
    cases he : runEvent me e with
    | none => rw [he] at h; simp at h
    | some me1 =>
      rw [he] at h
      obtain ⟨ho1, hfan, hran⟩ := runEvent_logs he how
      obtain ⟨hf, hr⟩ := ih h ho1
      constructor
      · intro n hn
        rcases hf n hn with hn1 | hn1
        · exact hfan n hn1
        · exact Or.inr hn1
      · intro l hl
        rcases hr l hl with hl1 | hl1
        · exact hran l hl1
        · exact Or.inr hl1

/-- C9: under the traversal order (no two-sided face visit before the
first element visit), every contested face visit happens with at least
one owned index already consumed, so every owned local index handed to
`peer_add_reply` is strictly positive and the fresh dedup sentinel
`lastadd = 0` can never suppress the first reply entry of a peer. -/
theorem claim9_reply_positive (t : List Event) (me0 me' : Meta)
    (hvf : volume_first t)
    (hrun : runEvents me0 t = some me')
    (hflog : me0.facelog = []) (hrlog : me0.replylog = []) :
    (∀ n ∈ me'.facelog, 1 ≤ n) ∧ (∀ l ∈ me'.replylog, 1 ≤ l) := by
  induction t generalizing me0 with
  | nil =>
    have hid : me' = me0 := by simpa [runEvents] using hrun.symm
    subst hid
    rw [hflog, hrlog]
    exact ⟨fun n hn => absurd hn (by simp), fun l hl => absurd hl (by simp)⟩
  | cons e rest ih =>
    unfold runEvents at hrun
    cases he : runEvent me0 e with
    | none => rw [he] at hrun; simp at hrun
    | some me1 =>
      rw [he] at hrun
      cases e with
      | volume =>
        have hfr := iter_volume1_frame he
        have hone : 1 ≤ me1.num_owned := by
          obtain ⟨-, -, -, rfl⟩ := iter_volume1_spec he
          simp
        obtain ⟨hf, hr⟩ := runEvents_logs hrun hone
        constructor
        · intro n hn
          rcases hf n hn with hn1 | hn1
          · rw [hfr.2.2.1, hflog] at hn1
            exact absurd hn1 (by simp)
          · exact hn1
        · intro l hl
          rcases hr l hl with hl1 | hl1
          · rw [hfr.2.1, hrlog] at hl1
            exact absurd hl1 (by simp)
          · exact hl1
      | bface s =>
        have hfr := iter_face_boundary_frame he
        exact ih me1 hvf hrun (by rw [hfr.2.2.1]; exact hflog)
          (by rw [hfr.2.1]; exact hrlog)
      | face2 s0 s1 => exact hvf.elim
      | corner =>
        have hid : me1 = me0 := by simpa [runEvent, iter_corner1] using he.symm
        subst hid
        exact ih me1 hvf hrun hflog hrlog

/-- Witness for C9: on the concrete two-rank run the contested face is
visited with one owned index consumed, and the single reply index is 1. -/
theorem claim9_reply_positive_witness :
    runEvents w4_me0 w4_trace = some w4_me1 ∧
    (∀ n ∈ w4_me1.facelog, 1 ≤ n) ∧ (∀ l ∈ w4_me1.replylog, 1 ≤ l) := by
  have h := claim9_reply_positive w4_trace w4_me0 w4_me1 trivial (by rfl) rfl rfl
  exact ⟨by rfl, h.1, h.2⟩


/-! ## Null-ghost lemmas -/

theorem mem_set_int {l : List Int} {i : Nat} {v x : Int} (h : x ∈ l.set i v) :
    x = v ∨ x ∈ l := by
  induction l generalizing i with
  | nil => simp [List.set] at h
  | cons a t ih =>
    cases i with
    | zero =>
      rcases List.mem_cons.mp h with h | h
      · exact Or.inl h
      · exact Or.inr (List.mem_cons_of_mem a h)
    | succ j =>
      rcases List.mem_cons.mp h with h | h
      · exact Or.inr (h ▸ List.mem_cons_self a t)
      · rcases ih h with h | h
        · exact Or.inl h
        · exact Or.inr (List.mem_cons_of_mem a h)

theorem sideQ_self_or_neg (r : Int) (gr : List Int) (s : FaceSide)
    (hng : s.is_ghost = true → s.quadid < 0) :
    sideQ r gr s = r ∨ sideQ r gr s = -1 := by
  cases hb : s.is_ghost with
  | false => exact Or.inl (sideQ_local hb)
  | true =>
    have hq := hng hb
    right
    simp [sideQ, hb]
    omega

theorem faceCalc_owned_of_self_or_neg (r : Int) (gr : List Int) (s0 s1 : FaceSide)
    (hrk : 0 ≤ r)
    (h0 : sideQ r gr s0 = r ∨ sideQ r gr s0 = -1)
    (h1 : sideQ r gr s1 = r ∨ sideQ r gr s1 = -1) :
    (faceCalc r gr s0 s1).is_owned = true := by
  rw [faceCalc_eq]
  rcases h0 with h0 | h0 <;> rcases h1 with h1 | h1 <;> rw [h0, h1] <;>
    (unfold faceStep; split_ifs <;> simp_all <;> omega)

theorem face_side_proc_noghost {me me' : Meta} {s : FaceSide} {q : Int} {c : FaceCalc}
    {lni : Int} (h : face_side_proc me s q c lni = some me')
    (hgh : me.has_ghost = false) (hlni : 0 ≤ lni)
    (hnodes : ∀ v ∈ me.element_nodes, 0 ≤ v) :
    me'.peers = me.peers ∧ me'.remotepos = me.remotepos ∧
    (∀ v ∈ me'.element_nodes, 0 ≤ v) := by
  rcases face_side_proc_cases h with ⟨-, hset⟩ | ⟨-, -, me1, pi, hpa, -⟩ | ⟨-, -, rfl⟩
  · obtain ⟨-, -, -, -, -, rfl⟩ := set_face_spec hset
    refine ⟨by simp, ?_, ?_⟩
    · simp only
      rw [if_neg (by omega)]
    · intro v hv
      simp only at hv
      rcases mem_set_int hv with rfl | hv
      · exact hlni
      · exact hnodes v hv
  · have := (peer_access_spec hpa).1.1
    rw [hgh] at this
    exact absurd this (by simp)
  · exact ⟨rfl, rfl, hnodes⟩

theorem runEvent_noghost {me me' : Meta} {e : Event} (h : runEvent me e = some me')
    (hng : no_ghost_entries e)
    (hgh : me.has_ghost = false) (hrk : 0 ≤ me.mpirank)
    (hpeers : me.peers = []) (hshared : me.num_shared = 0)
    (hremote : me.remotepos = []) (hnodes : ∀ v ∈ me.element_nodes, 0 ≤ v) :
    me'.peers = [] ∧ me'.num_shared = 0 ∧ me'.remotepos = [] ∧
    (∀ v ∈ me'.element_nodes, 0 ≤ v) := by
  cases e with
  | volume =>
    obtain ⟨-, -, -, rfl⟩ := iter_volume1_spec h
    refine ⟨by simpa using hpeers, by simpa using hshared, by simpa using hremote, ?_⟩
    intro v hv
    simp only at hv
    rcases mem_set_int hv with rfl | hv
    · exact Int.natCast_nonneg me.num_owned
    · exact hnodes v hv
  | bface s =>
    obtain ⟨-, -, hcase⟩ := iter_face_boundary_spec h
    rcases hcase with ⟨-, me1, hset, rfl⟩ | ⟨-, rfl⟩
    · obtain ⟨-, -, -, -, -, rfl⟩ := set_face_spec hset
      refine ⟨by simpa using hpeers, by simpa using hshared, ?_, ?_⟩
      · simp only
        rw [if_neg (by omega)]
        exact hremote
      · intro v hv
        simp only at hv
        rcases mem_set_int hv with rfl | hv
        · exact Int.natCast_nonneg me.num_owned
        · exact hnodes v hv
    · exact ⟨hpeers, hshared, hremote, hnodes⟩
  | face2 s0 s1 =>
    rcases iter_face_two_cases h with ⟨-, -, -, hconf⟩ | ⟨-, -, -, rfl⟩ | ⟨-, -, rfl⟩
    · obtain ⟨me2, hp0, hp1⟩ := iter_face_conf_split hconf
      have hcm := confMid_proj me s0 s1
      have hctr := confMid_counters me s0 s1
      have howned : (faceCalc me.mpirank me.ghost_rank s0 s1).is_owned = true :=
        faceCalc_owned_of_self_or_neg me.mpirank me.ghost_rank s0 s1 hrk
          (sideQ_self_or_neg me.mpirank me.ghost_rank s0 (fun hb => (hng.1 hb)))
          (sideQ_self_or_neg me.mpirank me.ghost_rank s1 (fun hb => (hng.2 hb)))
      have hlni : 0 ≤ confLni me s0 s1 := by
        simp only [confLni, howned, if_pos]
        exact Int.natCast_nonneg me.num_owned
      have hmid_gh : (confMid me s0 s1).has_ghost = me.has_ghost := hcm.1.2.2.2.1
      have hstep1 := face_side_proc_noghost hp0 (by rw [hmid_gh]; exact hgh) hlni
        (by rw [hcm.2.2.1]; exact hnodes)
      have hgh2 : me2.has_ghost = false := by
        rw [(face_side_proc_sameConst hp0).2.2.2.1, hmid_gh]
        exact hgh
      have hstep2 := face_side_proc_noghost hp1 hgh2 hlni hstep1.2.2
      obtain ⟨-, -, -, -, -, -, -, -, hs1n, -⟩ := face_side_proc_const hp0
      obtain ⟨-, -, -, -, -, -, -, -, hs2n, -⟩ := face_side_proc_const hp1
      refine ⟨?_, ?_, ?_, hstep2.2.2⟩
      · rw [hstep2.1, hstep1.1, hcm.2.1]
        exact hpeers
      · rw [hs2n, hs1n, (hctr.1 howned).2]
        exact hshared
      · rw [hstep2.2.1, hstep1.2.1, hcm.2.2.2.2.1]
        exact hremote
    · exact ⟨hpeers, hshared, hremote, hnodes⟩
    · exact ⟨hpeers, hshared, hremote, hnodes⟩
  | corner =>
    have hid : me' = me := by simpa [runEvent, iter_corner1] using h.symm
    subst hid
    exact ⟨hpeers, hshared, hremote, hnodes⟩

theorem runEvents_noghost {t : List Event} {me me' : Meta}
    (h : runEvents me t = some me') (hng : ∀ e ∈ t, no_ghost_entries e)
    (hgh : me.has_ghost = false) (hrk : 0 ≤ me.mpirank)
    (hpeers : me.peers = []) (hshared : me.num_shared = 0)
    (hremote : me.remotepos = []) (hnodes : ∀ v ∈ me.element_nodes, 0 ≤ v) :
    me'.peers = [] ∧ me'.num_shared = 0 ∧ me'.remotepos = [] ∧
    (∀ v ∈ me'.element_nodes, 0 ≤ v) := by
  induction t generalizing me with
  | nil =>
    have hid : me' = me := by simpa [runEvents] using h.symm
    subst hid
    exact ⟨hpeers, hshared, hremote, hnodes⟩
  | cons e rest ih =>
    unfold runEvents at h
    cases he : runEvent me e with
    | none => rw [he] at h; simp at h
    | some me1 =>
      rw [he] at h
      have hsc := runEvent_sameConst he
      obtain ⟨h1, h2, h3, h4⟩ := runEvent_noghost he (hng e (List.mem_cons_self e rest))
        hgh hrk hpeers hshared hremote hnodes
      exact ih h (fun x hx => hng x (List.mem_cons_of_mem e hx))
        (hsc.2.2.2.1.trans hgh) (by rw [hsc.2.2.1]; exact hrk) h1 h2 h3 h4


/-- C10: with a NULL ghost argument no ghost-rank table or peer registry
is built, the enumeration creates no peer record, `num_shared` stays 0 so
every written slot holds a non-negative owned index, no remote position
is recorded, and the protocol engine posts zero requests, leaving only
the local enumeration, the offset assembly and cleanup. -/
theorem claim10_null_ghost (t : List Event) (wf : Bool) (size rank : Int)
    (nle : Nat) (me' : Meta) (hrk : 0 ≤ rank)
    (hng : ∀ e ∈ t, no_ghost_entries e)
    (hrun : runEvents (trimesh_init wf size rank nle none) t = some me') :
    me'.has_ghost = false ∧ me'.ghost_rank = [] ∧ me'.peers = [] ∧
    me'.num_shared = 0 ∧ me'.remotepos = [] ∧
    (∀ v ∈ me'.element_nodes, 0 ≤ v) ∧
    post_query_reply me' = some ([], me') := by
  have hsc := runEvents_sameConst hrun
  have hinit_gh : (trimesh_init wf size rank nle none).has_ghost = false := rfl
  have hinit_gr : (trimesh_init wf size rank nle none).ghost_rank = [] := rfl
  obtain ⟨hpeers, hshared, hremote, hnodes⟩ := runEvents_noghost hrun hng hinit_gh
    (by simpa [trimesh_init] using hrk) rfl rfl rfl
    (by
      intro v hv
      simp only [trimesh_init] at hv
      rw [List.eq_of_mem_replicate hv])
  refine ⟨hsc.2.2.2.1.trans hinit_gh, hsc.2.2.2.2.1.trans hinit_gr, hpeers, hshared,
    hremote, hnodes, ?_⟩
  unfold post_query_reply
  rw [hpeers]
  show some (([] : List Request), { me' with peers := ([] : List Peer) }) =
    some ([], me')
  rw [← hpeers]

/-- Trace of the C10 witness: one element, one boundary face, one face
whose remote side is not present in any ghost layer. -/
def w10_trace : List Event :=
  [Event.volume,
   Event.bface { is_hanging := false, is_ghost := false, quadid := 0, le := 0,
                 face := 0, gplocal := 0 },
   Event.face2 { is_hanging := false, is_ghost := false, quadid := 0, le := 0,
                 face := 1, gplocal := 0 }
               { is_hanging := false, is_ghost := true, quadid := -1, le := 0,
                 face := 0, gplocal := 0 }]

/-- Final state of the C10 witness run. -/
def w10_me1 : Meta :=
  { with_faces := true, mpisize := 1, mpirank := 0, has_ghost := false,
    ghost_rank := [], peers := [], remotepos := [], lenum := 1, num_owned := 3,
    num_shared := 0, num_local_elements := 1,
    element_nodes := [0, 0, 0, 0, 0, 0, 0, 0, 0, 0, 0, 0, 0, 0, 0, 0, 0, 1, 0, 2, 0,
                      0, 0, 0, 0],
    writelog := [0, 17, 19], replylog := [], facelog := [2] }

/-- Witness for C10 on a one-rank run without a ghost layer. -/
theorem claim10_null_ghost_witness :
    runEvents (trimesh_init true 1 0 1 none) w10_trace = some w10_me1 ∧
    w10_me1.peers = [] ∧ w10_me1.num_shared = 0 ∧
    post_query_reply w10_me1 = some ([], w10_me1) := by
  have h := claim10_null_ghost w10_trace true 1 0 1 w10_me1 (by decide)
    (by
      intro e he
      rcases List.mem_cons.mp he with rfl | he2
      · exact trivial
      · rcases List.mem_cons.mp he2 with rfl | he3
        · exact fun hc => absurd hc (by decide)
        · rcases List.mem_cons.mp he3 with rfl | he4
          · exact ⟨fun hc => absurd hc (by decide), fun _ => by decide⟩
          · simp at he4)
    (by rfl)
  exact ⟨by rfl, h.2.2.1, h.2.2.2.1, h.2.2.2.2.2.2⟩

/-! ## Write-once lemmas -/

theorem runEvent_writelog {me me' : Meta} {e : Event} (h : runEvent me e = some me') :
    me'.writelog = me.writelog ++
      eventWrites me.with_faces me.mpirank me.ghost_rank me.vnodes me.lenum e ∧
    me'.lenum = me.lenum + (if e = Event.volume then 1 else 0) := by
  cases e with
  | volume =>
    obtain ⟨-, -, -, rfl⟩ := iter_volume1_spec h
    simp [eventWrites]
  | bface s =>
    obtain ⟨-, -, hcase⟩ := iter_face_boundary_spec h
    rcases hcase with ⟨hwf, me1, hset, rfl⟩ | ⟨hwf, rfl⟩
    · obtain ⟨-, -, -, -, -, rfl⟩ := set_face_spec hset
      simp [eventWrites, hwf]
    · simp [eventWrites, hwf]
  | face2 s0 s1 =>
    rcases iter_face_two_cases h with ⟨hh0, hh1, hwf, hconf⟩ | ⟨hh0, hh1, hwf, rfl⟩ |
      ⟨hhang, -, rfl⟩
    · obtain ⟨me2, hp0, hp1⟩ := iter_face_conf_split hconf
      have hcm := confMid_proj me s0 s1
      have hmidrank : (confMid me s0 s1).mpirank = me.mpirank := hcm.1.2.2.1
      have hrank2 : me2.mpirank = me.mpirank := by
        rw [(face_side_proc_sameConst hp0).2.2.1, hmidrank]
      have hw0 : me2.writelog = (confMid me s0 s1).writelog ++
          (if sideQ me.mpirank me.ghost_rank s0 = me.mpirank then
            [s0.le * 25 + pos_lnodes_face_full s0.face] else []) := by
        rcases face_side_proc_cases hp0 with ⟨hqeq, hset⟩ | ⟨hqne, -, -⟩ | ⟨-, hqne, rfl⟩
        · obtain ⟨-, -, -, -, -, rfl⟩ := set_face_spec hset
          rw [hmidrank] at hqeq
          simp [hqeq]
        · rw [hmidrank] at hqne
          rw [if_neg hqne, (face_side_proc_remote_frame hp0
            (by rw [hmidrank]; exact hqne)).2.1]
          simp
        · rw [hmidrank] at hqne
          rw [if_neg hqne]
          simp
      have hw1 : me'.writelog = me2.writelog ++
          (if sideQ me.mpirank me.ghost_rank s1 = me.mpirank then
            [s1.le * 25 + pos_lnodes_face_full s1.face] else []) := by
        rcases face_side_proc_cases hp1 with ⟨hqeq, hset⟩ | ⟨hqne, -, -⟩ | ⟨-, hqne, rfl⟩
        · obtain ⟨-, -, -, -, -, rfl⟩ := set_face_spec hset
          rw [hrank2] at hqeq
          simp [hqeq]
        · rw [hrank2] at hqne
          rw [if_neg hqne, (face_side_proc_remote_frame hp1
            (by rw [hrank2]; exact hqne)).2.1]
          simp
        · rw [hrank2] at hqne
          rw [if_neg hqne]
          simp
      constructor
      · rw [hw1, hw0, hcm.2.2.2.1]
        simp [eventWrites, hwf, hh0, hh1]
      · rw [(face_side_proc_const hp1).2.2.2.2.2.2.1,
          (face_side_proc_const hp0).2.2.2.2.2.2.1, hcm.2.2.2.2.2.2.2]
        simp
    · simp only [eventWrites]
      rw [if_neg (by simp [hwf])]
      simp
    · simp only [eventWrites]
      rcases hhang with hx | hx
      · rw [if_neg (fun hc => by rw [hc.2.1] at hx; exact absurd hx (by simp))]
        simp
      · rw [if_neg (fun hc => by rw [hc.2.2] at hx; exact absurd hx (by simp))]
        simp
  | corner =>
    have hid : me' = me := by simpa [runEvent, iter_corner1] using h.symm
    subst hid
    simp [eventWrites]

theorem runEvents_writelog {t : List Event} {me me' : Meta}
    (h : runEvents me t = some me') :
    me'.writelog = me.writelog ++
      plannedWrites me.with_faces me.mpirank me.ghost_rank me.vnodes me.lenum t := by
  induction t generalizing me with
  | nil =>
    have hid : me' = me := by simpa [runEvents] using h.symm
    subst hid
    simp [plannedWrites]
  | cons e rest ih =>
    unfold runEvents at h
    cases he : runEvent me e with
    | none => rw [he] at h; simp at h
    | some me1 =>
      rw [he] at h
      have hsc := runEvent_sameConst he
      have hev := runEvent_writelog he
      have hvn : me1.vnodes = me.vnodes := by
        unfold Meta.vnodes
        rw [hsc.1]
      have := ih h
      rw [this, hev.1, hsc.1, hsc.2.2.1, hsc.2.2.2.2.1, hvn, hev.2]
      simp only [plannedWrites]
      rw [List.append_assoc]

/-- C7: both slot setters refuse to write a slot that is not at the
zero-initialized sentinel, and over any trace whose planned write
positions are pairwise distinct the enumeration writes every slot at
most once (the write log has no duplicate). -/
theorem claim7_write_once :
    (∀ (me me' : Meta) (le f : Nat) (lni : Int),
      set_lnodes_face_full me le f lni = some me' →
      me.element_nodes.getD (le * 25 + pos_lnodes_face_full f) 0 = 0 ∧
      me.element_nodes.getD (le * 25 + pos_lnodes_face_full f + 1) 0 = 0) ∧
    (∀ (me me' : Meta) (le : Nat) (lni : Int),
      set_lnodes_corner_center me le lni = some me' →
      me.element_nodes.getD (le * me.vnodes) 0 = 0) ∧
    (∀ (t : List Event) (me0 me' : Meta), runEvents me0 t = some me' →
      me0.writelog = [] →
      (plannedWrites me0.with_faces me0.mpirank me0.ghost_rank me0.vnodes
        me0.lenum t).Nodup →
      me'.writelog = plannedWrites me0.with_faces me0.mpirank me0.ghost_rank
        me0.vnodes me0.lenum t ∧
      me'.writelog.Nodup) := by
  refine ⟨?_, ?_, ?_⟩
  · intro me me' le f lni h
    obtain ⟨-, -, -, hz0, hz1, -⟩ := set_face_spec h
    exact ⟨hz0, hz1⟩
  · intro me me' le lni h
    exact (set_center_spec h).2.1
  · intro t me0 me' h hlog hnd
    have := runEvents_writelog h
    rw [hlog] at this
    simp only [List.nil_append] at this
    exact ⟨this, this ▸ hnd⟩

/-- Witness for C7 on the concrete one-rank trace: the planned writes
are the interior slot 0, the boundary-face slot 17 and the conforming
face slot 19, pairwise distinct, and the run writes exactly these. -/
theorem claim7_write_once_witness :
    w10_me1.writelog = plannedWrites true 0 [] 25 0 w10_trace ∧
    w10_me1.writelog.Nodup := by
  have h := claim7_write_once.2.2 w10_trace (trimesh_init true 1 0 1 none) w10_me1
    (by rfl) rfl (by decide)
  exact ⟨h.1, h.2⟩


end Trimesh
